import Mathlib

set_option maxHeartbeats 1000000

/-!
# Verification of the testid-manager identifier engine

Shallow embedding of the testid-manager repository: the `add` command
(src/commands/add.js), the `clean` command (clean.js), the `compare`
command (compare.js), and the legacy monolith (src/index.cjs).

Strings are embedded as lists of characters (`Str`).  The JavaScript
regular expressions used by the tool are all of the shape
`^<prefix>\d...:\s*` anchored at the front of a title; they are embedded
as explicit character-list matchers.  Syntax trees produced by the
parser are embedded as the inductive `Ast`, where child lists are
encoded with the `nil`/`cons` constructors so that every traversal is a
plain structural recursion.
-/

/-- JS strings are embedded as lists of characters. -/
abbrev Str := List Char

/-- The ASCII whitespace characters, as matched by the `\s` class and
removed by `String.prototype.trim` on the inputs this tool handles. -/
def isWsChar (c : Char) : Bool := c = ' ' || c = '\t' || c = '\n' || c = '\r'

/-- `String.prototype.trim`: drop leading and trailing whitespace. -/
def trimStr (s : Str) : Str :=
  ((s.dropWhile isWsChar).reverse.dropWhile isWsChar).reverse

/-- The decimal digit character for a value below ten. -/
def digitChar : Nat → Char
  | 0 => '0' | 1 => '1' | 2 => '2' | 3 => '3' | 4 => '4'
  | 5 => '5' | 6 => '6' | 7 => '7' | 8 => '8' | _ => '9'

/-- Fuel-driven decimal numeral construction (most significant digit first). -/
def digitsAux : Nat → Nat → Str
  | 0, _ => []
  | fuel + 1, n =>
    if n < 10 then [digitChar n]
    else digitsAux fuel (n / 10) ++ [digitChar (n % 10)]

/-- The decimal numeral of `n`, as produced by `Number.prototype.toString()`. -/
def natStr (n : Nat) : Str := digitsAux (n + 1) n

/-- `String.prototype.padStart(w, '0')`: left-pad with zeros up to width `w`;
a longer string is returned unchanged. -/
def padStart (w : Nat) (s : Str) : Str := List.replicate (w - s.length) '0' ++ s

/-- A full candidate identifier: `prefix + String(n).padStart(width, '0')`,
as built by the allocation loops of add.js and index.cjs. -/
def idName (p : Str) (w : Nat) (n : Nat) : Str := p ++ padStart w (natStr n)

/-- `parseInt(s, 10)` on an all-digit string. -/
def decValue (s : Str) : Nat := s.foldl (fun a c => 10 * a + (c.toNat - 48)) 0

/-- Remove a literal leading occurrence of `p` from the second argument;
`none` if the second argument does not start with `p`. -/
def stripPre : Str → Str → Option Str
  | [], t => some t
  | _ :: _, [] => none
  | c :: p, d :: t => if c = d then stripPre p t else none

/-- The matcher `^(<prefix>)(\d{w}):\s*` used by add.js (both in
`parseTestIdsFromFile` and `transformFile`) and, with an empty prefix, by
index.cjs.  On success it returns the matched full identifier
(prefix + digits) and the title text left after removing the whole match
(`title.replace(idRegex, '')`). -/
def matchExact (p : Str) (w : Nat) (title : Str) : Option (Str × Str) :=
  match stripPre p title with
  | none => none
  | some t1 =>
    if (t1.take w).length = w && (t1.take w).all Char.isDigit then
      match t1.drop w with
      | ':' :: t3 => some (p ++ t1.take w, t3.dropWhile isWsChar)
      | _ => none
    else none

/-- The matcher `^<prefix>(\d+):\s*` used by clean.js (`transformFile`) and
compare.js (`extractIdsFromFile`).  The digit run is greedy and must be
followed directly by a colon, so on success the captured digits are the
maximal digit run after the prefix.  Returns the captured digits and the
text left after removing the whole match. -/
def matchPlus (p : Str) (title : Str) : Option (Str × Str) :=
  match stripPre p title with
  | none => none
  | some t1 =>
    if (t1.takeWhile Char.isDigit).isEmpty then none
    else
      match t1.dropWhile Char.isDigit with
      | ':' :: t3 => some (t1.takeWhile Char.isDigit, t3.dropWhile isWsChar)
      | _ => none

/-- add.js `parseBaseId`: matches `^([A-Za-z]*)(\d+)$`, so the seed must be
a (possibly empty) run of ASCII letters followed by a nonempty run of
digits; returns (prefix, baseNumber, numberLength), or `none` for the
thrown error. -/
def parseBaseId (b : Str) : Option (Str × Nat × Nat) :=
  if !(b.dropWhile Char.isAlpha).isEmpty && (b.dropWhile Char.isAlpha).all Char.isDigit then
    some (b.takeWhile Char.isAlpha, decValue (b.dropWhile Char.isAlpha),
      (b.dropWhile Char.isAlpha).length)
  else none

/-- compare.js `getIdPrefix`: matches `^(.*?)(\d+)$` lazily, so the digits
are the maximal trailing run of digits and the prefix is everything before
it; returns (prefix, padding), or `none` for the thrown error.  clean.js
uses the same regex and keeps only the prefix. -/
def getIdPrefixCmp (b : Str) : Option (Str × Nat) :=
  if (b.reverse.takeWhile Char.isDigit).isEmpty then none
  else
    some ((b.reverse.dropWhile Char.isDigit).reverse,
      (b.reverse.takeWhile Char.isDigit).length)

/-- The callee of a call expression, abstracted to its resolved name:
a direct identifier call, a member access whose final property is an
identifier, or any other callee shape. -/
inductive Callee where
  | ident (nm : Str)
  | member (nm : Str)
  | misc
deriving DecidableEq

/-- Embedded syntax trees.  `strLit` is a string literal, `tmpl q0 exprs`
a template literal with first text fragment `q0` and interpolated
expressions `exprs` (a `nil`/`cons` list; the later text fragments carry
no syntax and are dropped), `call c args` a call expression with a
`nil`/`cons` list of arguments, `box` any other node kind with children
(function bodies, object literals, ...), `leaf` any other childless node.
Child lists are encoded with the `nil`/`cons` constructors so that the
recast-style depth-first traversals below are structural recursions. -/
inductive Ast where
  | call (c : Callee) (args : Ast)
  | strLit (s : Str)
  | tmpl (q0 : Str) (exprs : Ast)
  | box (children : Ast)
  | leaf
  | nil
  | cons (hd tl : Ast)
deriving DecidableEq

def itName : Str := ['i', 't']
def testName : Str := ['t', 'e', 's', 't']

/-- add.js recognizes only direct `it`/`test` identifier calls. -/
def isTestAdd : Callee → Bool
  | .ident nm => nm = itName || nm = testName
  | _ => false

/-- clean.js, compare.js and index.cjs also accept `it`/`test` as the final
property of a member-access callee. -/
def isTestCC : Callee → Bool
  | .ident nm => nm = itName || nm = testName
  | .member nm => nm = itName || nm = testName
  | .misc => false

/-- add.js / index.cjs title eligibility: a template literal with zero
interpolated expressions yields its first text fragment, a string literal
yields its value; every other first-argument shape yields no title. -/
def eligTitleAdd : Ast → Option Str
  | .tmpl q0 .nil => some q0
  | .strLit s => some s
  | _ => none

/-- Mutable state threaded through the transformFile visitors: the shared
usedIds set, the file-local increment, the fileChanged flag, and — the
embedding of the console log of updated titles — the list of assigned
(identifier, number) pairs in assignment order. -/
structure St where
  used : List Str
  localInc : Nat
  changed : Bool
  log : List (Str × Nat)
deriving DecidableEq

/-- The per-run configuration of add.js after parseBaseId. -/
structure AddCfg where
  pfx : Str
  wd : Nat
  baseNum : Nat
  ow : Bool
deriving DecidableEq

/-- The do/while allocation search of add.js `transformFile` (and the
while loop of index.cjs): starting at `n`, step past candidates whose
full identifier is in usedIds.  Fuel-driven so that it is a structural
recursion; `allocId` supplies enough fuel for the loop to reach a free
candidate (`allocId_not_mem` below shows the result is free, exactly as
the JavaScript loop guarantees on exit). -/
def findFree (used : List Str) (p : Str) (w : Nat) : Nat → Nat → Nat
  | 0, n => n
  | fuel + 1, n => if idName p w n ∈ used then findFree used p w fuel (n + 1) else n

def allocId (used : List Str) (p : Str) (w : Nat) (start : Nat) : Nat :=
  findFree used p w (used.length + 1) start

/-- `title.replace(idRegex, '')` for the exact-width matcher: remove a
leading match, if any. -/
def stripExact (p : Str) (w : Nat) (t : Str) : Str :=
  match matchExact p w t with
  | some (_, r) => r
  | none => t

/-- The rewritten title built by add.js's transformFile when it assigns
identifier number `n`: the new identifier, a colon and a space, then the
old title with any leading match removed and trimmed. -/
def addFinalTitle (p : Str) (w : Nat) (n : Nat) (title : Str) : Str :=
  idName p w n ++ ':' :: ' ' :: trimStr (stripExact p w title)

/-- add.js `transformFile`'s visitCallExpression pass.  A test call with no
first argument, or with an ineligible first argument, returns `false` and
its whole subtree is skipped.  A declaration already bearing a matching
identifier (with overwrite disabled) is skipped but its children are still
traversed.  Otherwise an identifier is allocated, marked used, the cursor
advanced, and the first argument replaced by a string literal holding the
new title (the replacement node is a string literal, which the traversal
leaves unchanged, so the remaining arguments carry the state). -/
def trAdd (cfg : AddCfg) (fb : Nat) : Ast → St → Ast × St
  | .call c args, st =>
    if isTestAdd c then
      match args with
      | .cons a0 rest =>
        match eligTitleAdd a0 with
        | none => (.call c (.cons a0 rest), st)
        | some title =>
          if (matchExact cfg.pfx cfg.wd title).isSome && !cfg.ow then
            let (a0', st1) := trAdd cfg fb a0 st
            let (rest', st2) := trAdd cfg fb rest st1
            (.call c (.cons a0' rest'), st2)
          else
            let n := allocId st.used cfg.pfx cfg.wd (fb + st.localInc)
            let newId := idName cfg.pfx cfg.wd n
            let st1 : St :=
              ⟨newId :: st.used, n + 1 - fb, true, st.log ++ [(newId, n)]⟩
            let (rest', st2) := trAdd cfg fb rest st1
            (.call c (.cons (.strLit (addFinalTitle cfg.pfx cfg.wd n title)) rest'), st2)
      | _ => (.call c args, st)
    else
      let (args', st') := trAdd cfg fb args st
      (.call c args', st')
  | .strLit s, st => (.strLit s, st)
  | .tmpl q0 exprs, st =>
    let (exprs', st') := trAdd cfg fb exprs st
    (.tmpl q0 exprs', st')
  | .box ch, st =>
    let (ch', st') := trAdd cfg fb ch st
    (.box ch', st')
  | .leaf, st => (.leaf, st)
  | .nil, st => (.nil, st)
  | .cons hd tl, st =>
    let (hd', st1) := trAdd cfg fb hd st
    let (tl', st2) := trAdd cfg fb tl st1
    (.cons hd' tl', st2)

/-- add.js `parseTestIdsFromFile`'s visitCallExpression pass: a test call
with no first argument stops the traversal of its subtree; otherwise the
(possibly empty) title is matched and a found (id, title) pair recorded,
and the traversal continues into all children. -/
def scanAdd (cfg : AddCfg) : Ast → List (Str × Str)
  | .call c args =>
    if isTestAdd c then
      match args with
      | .cons a0 rest =>
        (match matchExact cfg.pfx cfg.wd ((eligTitleAdd a0).getD []) with
         | some (id, _) => [(id, (eligTitleAdd a0).getD [])]
         | none => []) ++ scanAdd cfg a0 ++ scanAdd cfg rest
      | _ => []
    else scanAdd cfg args
  | .strLit _ => []
  | .tmpl _ exprs => scanAdd cfg exprs
  | .box ch => scanAdd cfg ch
  | .leaf => []
  | .nil => []
  | .cons hd tl => scanAdd cfg hd ++ scanAdd cfg tl

/-- Every test declaration that add.js's transformFile can reach either
has no eligible title (its subtree is skipped) or already bears a
matching identifier; on such a tree the rewrite pass with overwrite
disabled is the identity. -/
def allMarked (cfg : AddCfg) : Ast → Bool
  | .call c args =>
    if isTestAdd c then
      match args with
      | .cons a0 rest =>
        match eligTitleAdd a0 with
        | none => true
        | some title =>
          (matchExact cfg.pfx cfg.wd title).isSome && allMarked cfg a0 && allMarked cfg rest
      | _ => true
    else allMarked cfg args
  | .tmpl _ exprs => allMarked cfg exprs
  | .box ch => allMarked cfg ch
  | .cons hd tl => allMarked cfg hd && allMarked cfg tl
  | _ => true

/-- A source file: its path and its parsed tree (a `nil`/`cons` list of
top-level expressions). -/
structure SrcFile where
  fname : Str
  tree : Ast
deriving DecidableEq

/-- The global registry `idOccurrences`: identifier, mapped to the list of
(file, title) pairs bearing it, in insertion order. -/
abbrev Reg := List (Str × List (Str × Str))

def regAdd (r : Reg) (id : Str) (ft : Str × Str) : Reg :=
  match r with
  | [] => [(id, [ft])]
  | (k, l) :: rest =>
    if k = id then (k, l ++ [ft]) :: rest else (k, l) :: regAdd rest id ft

/-- Fold the scanned occurrences (id, file, title) into the registry. -/
def buildReg (occs : List (Str × Str × Str)) : Reg :=
  occs.foldl (fun r o => regAdd r o.1 (o.2.1, o.2.2)) []

/-- The registry entries with more than one occurrence. -/
def dupEntries (r : Reg) : Reg := r.filter (fun p => 1 < p.2.length)

/-- Total number of occurrences recorded under an identifier, summed over
all registry entries carrying that key. -/
def grpLen : Reg → Str → Nat
  | [], _ => 0
  | (k, l) :: rest, id => (if k = id then l.length else 0) + grpLen rest id

/-- add.js `parseTestIdsFromFile` at file level: tag occurrences with the
file path. -/
def scanFileAdd (cfg : AddCfg) (f : SrcFile) : List (Str × Str × Str) :=
  (scanAdd cfg f.tree).map (fun o => (o.1, f.fname, o.2))

/-- The per-file loop of add.js `main` step "Update files": transform each
file starting at `baseNumber + totalInc`, accumulating the increment, the
shared usedIds and the assignment log.  Returns the transformed files with
their fileChanged flags, the concatenated log, the final total increment
and the final used set. -/
def addFilesGo (cfg : AddCfg) : List SrcFile → Nat → List Str →
    List (SrcFile × Bool) × List (Str × Nat) × Nat × List Str
  | [], tI, used => ([], [], tI, used)
  | f :: fs, tI, used =>
    let r := trAdd cfg (cfg.baseNum + tI) f.tree ⟨used, 0, false, []⟩
    let rest := addFilesGo cfg fs (tI + r.2.localInc) r.2.used
    ((⟨f.fname, r.1⟩, r.2.changed) :: rest.1, r.2.log ++ rest.2.1,
      rest.2.2.1, rest.2.2.2)

/-- Outcome of add.js `main`: seed rejected by parseBaseId (caught error,
nothing touched), run blocked by duplicate identifiers (reported, nothing
written), or completed with per-file results, the assignment log, the
final total increment and the final used set. -/
inductive AddOut where
  | err
  | blocked (dups : Reg)
  | done (outs : List (SrcFile × Bool)) (log : List (Str × Nat)) (tI : Nat)
      (usedF : List Str)
deriving DecidableEq

/-- add.js `main`: parse the seed, scan every file into the registry,
abort if any identifier occurs more than once, otherwise seed usedIds with
the registry keys and transform the files. -/
def addMain (bid : Str) (ow : Bool) (files : List SrcFile) : AddOut :=
  match parseBaseId bid with
  | none => .err
  | some (p, bn, w) =>
    let cfg : AddCfg := ⟨p, w, bn, ow⟩
    let reg := buildReg (files.foldr (fun f acc => scanFileAdd cfg f ++ acc) [])
    if (dupEntries reg).isEmpty then
      let r := addFilesGo cfg files 0 (reg.map (fun e => e.1))
      .done r.1 r.2.1 r.2.2.1 r.2.2.2
    else .blocked (dupEntries reg)

/-- One extracted identifier of compare.js: its numeric value and the full
`prefix + digits` string. -/
structure IdObj where
  number : Nat
  full : Str
deriving DecidableEq

/-- compare.js `extractIdsFromFile`'s visitor.  The guard
`if (!firstArg || !firstArg.value) return false` rejects a missing first
argument and any node without a truthy `value` property — which includes
every template literal (a Babel TemplateLiteral node has no `value`), so
the template-literal branch below the guard is unreachable; an empty
string literal is also rejected ("" is falsy).  On rejection the whole
subtree is skipped.  Eligible titles are matched with `^prefix(\d+):\s*`
and recorded as (parseInt(digits), prefix + digits). -/
def cmpScan (p : Str) : Ast → List IdObj
  | .call c args =>
    if isTestCC c then
      match args with
      | .cons a0 rest =>
        match a0 with
        | .strLit (c0 :: s) =>
          (match matchPlus p (c0 :: s) with
           | some (d, _) => [⟨decValue d, p ++ d⟩]
           | none => []) ++ cmpScan p rest
        | _ => []
      | _ => []
    else cmpScan p args
  | .tmpl _ exprs => cmpScan p exprs
  | .box ch => cmpScan p ch
  | .cons hd tl => cmpScan p hd ++ cmpScan p tl
  | _ => []

/-- `[...new Set(l)]`: keep the first occurrence of each element. -/
def dedupNats (seen : List Nat) : List Nat → List Nat
  | [] => []
  | x :: xs => if x ∈ seen then dedupNats seen xs else x :: dedupNats (x :: seen) xs

/-- Ascending insertion, used to embed `.sort((a, b) => a - b)`. -/
def insSorted (n : Nat) : List Nat → List Nat
  | [] => [n]
  | m :: ms => if n ≤ m then n :: m :: ms else m :: insSorted n ms

def sortNats (l : List Nat) : List Nat := l.foldr insSorted []

/-- Map-key order: first occurrence of each full identifier. -/
def dedupStrs (seen : List Str) : List Str → List Str
  | [] => []
  | x :: xs => if x ∈ seen then dedupStrs seen xs else x :: dedupStrs (x :: seen) xs

/-- compare.js `compareIds(idObjects, baseNumber = 1)`: duplicates are the
full identifiers occurring more than once (in first-occurrence order);
`sorted` is the deduplicated ascending list of numeric values, and the
loop `for (i = baseNumber; i <= sorted[sorted.length - 1]; i++)` collects
the missing values — no iterations when `sorted` is empty, because
`i <= undefined` is false.  Returns (missing, duplicates). -/
def compareIds (idObjects : List IdObj) (baseNumber : Nat) : List Nat × List Str :=
  let numbers := idObjects.map (fun i => i.number)
  let fulls := idObjects.map (fun i => i.full)
  let duplicates := (dedupStrs [] fulls).filter (fun f => 1 < fulls.count f)
  let sorted := sortNats (dedupNats [] numbers)
  let missing :=
    match sorted.getLast? with
    | none => []
    | some m =>
      (List.range' baseNumber (m + 1 - baseNumber)).filter (fun i => decide (i ∉ sorted))
  (missing, duplicates)

/-- The printed summary of compare.js `main`. -/
structure CmpOut where
  total : Nat
  duplicates : List Str
  missing : List Str
deriving DecidableEq

/-- compare.js `main`: derive (prefix, padding) from the seed, extract the
identifiers of every file, and run `compareIds(allIds)` — with the default
`baseNumber = 1`; the seed's numeric value is never passed.  Missing
numbers are printed re-padded under the prefix. -/
def compareMain (bid : Str) (files : List SrcFile) : Option CmpOut :=
  match getIdPrefixCmp bid with
  | none => none
  | some (p, padding) =>
    let allIds := files.foldr (fun f acc => cmpScan p f.tree ++ acc) []
    let r := compareIds allIds 1
    some ⟨allIds.length, r.2, r.1.map (fun n => p ++ padStart padding (natStr n))⟩

/-- clean.js `transformFile`'s visitor: same callee resolution and
`!firstArg || !firstArg.value` guard as compare.js (so template literals
are never cleaned and rejected subtrees are skipped); a matching title is
replaced by `title.replace(idRegex, '')` — with no trim — packaged in a
fresh string literal node, and the file is flagged changed. -/
def clnTr (p : Str) : Ast → Bool → Ast × Bool
  | .call c args, ch =>
    if isTestCC c then
      match args with
      | .cons a0 rest =>
        match a0 with
        | .strLit (c0 :: s) =>
          match matchPlus p (c0 :: s) with
          | some (_, newTitle) =>
            let r := clnTr p rest true
            (.call c (.cons (.strLit newTitle) r.1), r.2)
          | none =>
            let r := clnTr p rest ch
            (.call c (.cons (.strLit (c0 :: s)) r.1), r.2)
        | _ => (.call c args, ch)
      | _ => (.call c args, ch)
    else
      let r := clnTr p args ch
      (.call c r.1, r.2)
  | .tmpl q0 exprs, ch =>
    let r := clnTr p exprs ch
    (.tmpl q0 r.1, r.2)
  | .box x, ch =>
    let r := clnTr p x ch
    (.box r.1, r.2)
  | .cons hd tl, ch =>
    let r1 := clnTr p hd ch
    let r2 := clnTr p tl r1.2
    (.cons r1.1 r2.1, r2.2)
  | e, ch => (e, ch)

/-- clean.js `main`: derive the prefix from the seed and transform each
matched file, reporting its changed flag. -/
def cleanMain (bid : Str) (files : List SrcFile) : Option (List (SrcFile × Bool)) :=
  match getIdPrefixCmp bid with
  | none => none
  | some (p, _) =>
    some (files.map (fun f =>
      let r := clnTr p f.tree false
      (⟨f.fname, r.1⟩, r.2)))

/-- index.cjs `parseTestIdsFromFile`'s visitor: member-access callees are
recognized, a missing or non-literal first argument simply yields no
title, template literals with zero expressions are eligible, and the
matcher is `^(\d{idLength}):\s*` with no prefix (idLength is the length
of the configured startIndex).  Unlike add.js, the traversal always
continues into the children. -/
def idxScan (w : Nat) : Ast → List (Str × Str)
  | .call c args =>
    if isTestCC c then
      match args with
      | .cons a0 rest =>
        (match eligTitleAdd a0 with
         | some title =>
           match matchExact [] w title with
           | some (id, _) => [(id, title)]
           | none => []
         | none => []) ++ idxScan w a0 ++ idxScan w rest
      | _ => []
    else idxScan w args
  | .tmpl _ exprs => idxScan w exprs
  | .box ch => idxScan w ch
  | .cons hd tl => idxScan w hd ++ idxScan w tl
  | _ => []

/-- index.cjs `transformFile`'s visitor: same recognition and eligibility
as its scanner; a declaration with a matching digit-only identifier is
skipped when overwrite is disabled, any other eligible declaration gets
the next free identifier; children are always traversed. -/
def idxTr (w : Nat) (ow : Bool) (fb : Nat) : Ast → St → Ast × St
  | .call c args, st =>
    if isTestCC c then
      match args with
      | .cons a0 rest =>
        match eligTitleAdd a0 with
        | none =>
          let r0 := idxTr w ow fb a0 st
          let r1 := idxTr w ow fb rest r0.2
          (.call c (.cons r0.1 r1.1), r1.2)
        | some title =>
          if (matchExact [] w title).isSome && !ow then
            let r0 := idxTr w ow fb a0 st
            let r1 := idxTr w ow fb rest r0.2
            (.call c (.cons r0.1 r1.1), r1.2)
          else
            let n := allocId st.used [] w (fb + st.localInc)
            let newId := idName [] w n
            let st1 : St :=
              ⟨newId :: st.used, n + 1 - fb, true, st.log ++ [(newId, n)]⟩
            let r1 := idxTr w ow fb rest st1
            (.call c (.cons (.strLit (addFinalTitle [] w n title)) r1.1), r1.2)
      | _ => (.call c args, st)
    else
      let r := idxTr w ow fb args st
      (.call c r.1, r.2)
  | .strLit s, st => (.strLit s, st)
  | .tmpl q0 exprs, st =>
    let r := idxTr w ow fb exprs st
    (.tmpl q0 r.1, r.2)
  | .box ch, st =>
    let r := idxTr w ow fb ch st
    (.box r.1, r.2)
  | .leaf, st => (.leaf, st)
  | .nil, st => (.nil, st)
  | .cons hd tl, st =>
    let r1 := idxTr w ow fb hd st
    let r2 := idxTr w ow fb tl r1.2
    (.cons r1.1 r2.1, r2.2)

/-- The per-file loop of index.cjs `main` step 5. -/
def idxFilesGo (w : Nat) (ow : Bool) (bn : Nat) : List SrcFile → Nat → List Str →
    List (SrcFile × Bool) × List (Str × Nat) × Nat × List Str
  | [], tI, used => ([], [], tI, used)
  | f :: fs, tI, used =>
    let r := idxTr w ow (bn + tI) f.tree ⟨used, 0, false, []⟩
    let rest := idxFilesGo w ow bn fs (tI + r.2.localInc) r.2.used
    ((⟨f.fname, r.1⟩, r.2.changed) :: rest.1, r.2.log ++ rest.2.1,
      rest.2.2.1, rest.2.2.2)

/-- Outcome of index.cjs `main` (embedded for an all-digit startIndex):
the duplicate report together with the transform results — the transform
runs even when the duplicate report is nonempty, because the duplicate
branch of index.cjs is not followed by a return. -/
inductive IdxOut where
  | err
  | run (dups : Reg) (outs : List (SrcFile × Bool)) (log : List (Str × Nat))
deriving DecidableEq

/-- index.cjs `main`: scan every file into the registry, compute (and
print) the duplicates, then — with no early return in the duplicate case —
seed usedIds with the registry keys and transform every file. -/
def idxMain (startIndex : Str) (ow : Bool) (files : List SrcFile) : IdxOut :=
  if startIndex.isEmpty || !startIndex.all Char.isDigit then .err
  else
    let w := startIndex.length
    let reg := buildReg (files.foldr
      (fun f acc => (idxScan w f.tree).map (fun o => (o.1, f.fname, o.2)) ++ acc) [])
    let r := idxFilesGo w ow (decValue startIndex) files 0 (reg.map (fun e => e.1))
    .run (dupEntries reg) r.1 r.2.1

/-- The title text a matched title becomes under clean.js (unchanged when
the matcher does not fire). -/
def cleanTitleStr (p : Str) (t : Str) : Str :=
  match matchPlus p t with
  | some (_, r) => r
  | none => t

/-- Modelled from the spec: `foldr max 0`, the maximum of a list of
naturals (0 on the empty list). -/
def maxNat (l : List Nat) : Nat := l.foldr max 0

/-- Modelled from the spec's words for claim C2: with `S` the set of
distinct numeric values among matched ids and `base` the numeric value of
the seed identifier, report every integer in `[base, max S]` not in `S`;
none when `S` is empty. -/
def missingSpec (base : Nat) (nums : List Nat) : List Nat :=
  if nums.isEmpty then []
  else (List.range' base (maxNat nums + 1 - base)).filter (fun i => decide (i ∉ nums))

/-- The number of declarations to which add.js's transformFile assigns an
identifier, on a tree none of whose reachable eligible titles matches the
active pattern (mirrors the `trAdd` traversal). -/
def freshCount : Ast → Nat
  | .call c args =>
    if isTestAdd c then
      match args with
      | .cons a0 rest =>
        match eligTitleAdd a0 with
        | none => 0
        | some _ => 1 + freshCount rest
      | _ => 0
    else freshCount args
  | .tmpl _ exprs => freshCount exprs
  | .box ch => freshCount ch
  | .cons hd tl => freshCount hd + freshCount tl
  | _ => 0

/-- The identifiers scanned in a subtree, in traversal order. -/
def scanIds (cfg : AddCfg) (e : Ast) : List Str := (scanAdd cfg e).map Prod.fst

/-- The scanned identifiers of a whole file set, in scan order. -/
def scanIdsFiles (cfg : AddCfg) (files : List SrcFile) : List Str :=
  files.foldr (fun f acc => scanIds cfg f.tree ++ acc) []

/-- A test declaration `it(<arg>, () => {})`, used in the concrete
evaluations below. -/
def itDecl (t : Ast) : Ast := .call (.ident itName) (.cons t (.cons (.box .nil) .nil))

/-- State and log discipline of one rewrite pass from `st` to `st'`: the
used set only grows, the cursor `fb + localInc` never decreases, and the
log is extended by allocation records whose numbers lie between the entry
and exit cursors, strictly increasing, each the padded name of its number,
fresh relative to the entry used set and present in the exit used set. -/
def RunStep (p : Str) (w : Nat) (fb : Nat) (st st' : St) : Prop :=
  (∀ x ∈ st.used, x ∈ st'.used) ∧
  st.localInc ≤ st'.localInc ∧
  ∃ dl, st'.log = st.log ++ dl ∧
    (∀ q ∈ dl, fb + st.localInc ≤ q.2 ∧ q.2 < fb + st'.localInc ∧
      q.1 = idName p w q.2 ∧ q.1 ∈ st'.used ∧ q.1 ∉ st.used) ∧
    List.Chain' (fun a b => a.2 < b.2) dl

/-! ## Numerals, padding, identifier injectivity -/

theorem decValue_append (a b : Str) :
    decValue (a ++ b) = b.foldl (fun x c => 10 * x + (c.toNat - 48)) (decValue a) := by
  simp [decValue, List.foldl_append]

theorem digitChar_isDigit (n : Nat) : (digitChar n).isDigit = true := by
  unfold digitChar
  split <;> decide

theorem digitChar_val (n : Nat) (h : n < 10) : (digitChar n).toNat - 48 = n := by
  interval_cases n <;> decide

theorem decValue_single (c : Char) : decValue [c] = c.toNat - 48 := by
  simp [decValue, List.foldl]

theorem decValue_snoc (l : Str) (c : Char) :
    decValue (l ++ [c]) = 10 * decValue l + (c.toNat - 48) := by
  rw [decValue_append]
  rfl

theorem decValue_digitsAux (fuel : Nat) :
    ∀ n, n < 10 ^ fuel → decValue (digitsAux fuel n) = n := by
  induction fuel with
  | zero =>
    intro n h
    simp at h
    simp [h, digitsAux, decValue]
  | succ fuel ih =>
    intro n h
    by_cases h10 : n < 10
    · simp [digitsAux, h10, decValue_single, digitChar_val n h10]
    · have hdiv : n / 10 < 10 ^ fuel := by
        rw [pow_succ] at h
        omega
      simp only [digitsAux, if_neg h10, decValue_snoc, ih (n / 10) hdiv,
        digitChar_val (n % 10) (Nat.mod_lt _ (by norm_num))]
      omega

theorem decValue_natStr (n : Nat) : decValue (natStr n) = n := by
  apply decValue_digitsAux
  calc n < 10 ^ n := Nat.lt_pow_self (by norm_num) n
    _ ≤ 10 ^ (n + 1) := Nat.pow_le_pow_right (by norm_num) (Nat.le_succ n)

theorem foldl_zeros (k : Nat) :
    List.foldl (fun x c => 10 * x + (c.toNat - 48)) 0 (List.replicate k '0') = 0 := by
  induction k with
  | zero => rfl
  | succ k ih => simpa [List.replicate_succ] using ih

theorem decValue_padStart (w : Nat) (s : Str) : decValue (padStart w s) = decValue s := by
  unfold padStart
  rw [show decValue (List.replicate (w - s.length) '0' ++ s)
      = s.foldl (fun x c => 10 * x + (c.toNat - 48))
          (decValue (List.replicate (w - s.length) '0')) from decValue_append _ _]
  have h0 : decValue (List.replicate (w - s.length) '0') = 0 := foldl_zeros _
  rw [h0]
  rfl

theorem decValue_padName (w n : Nat) : decValue (padStart w (natStr n)) = n := by
  rw [decValue_padStart, decValue_natStr]

theorem idName_inj {p : Str} {w a b : Nat} (h : idName p w a = idName p w b) : a = b := by
  unfold idName at h
  have h2 : padStart w (natStr a) = padStart w (natStr b) := List.append_cancel_left h
  have := congrArg decValue h2
  rwa [decValue_padName, decValue_padName] at this

theorem digitsAux_ne_nil (fuel n : Nat) : digitsAux (fuel + 1) n ≠ [] := by
  by_cases h10 : n < 10 <;> simp [digitsAux, h10]

theorem natStr_ne_nil (n : Nat) : natStr n ≠ [] := digitsAux_ne_nil n n

theorem padStart_ne_nil {w : Nat} {s : Str} (h : s ≠ []) : padStart w s ≠ [] := by
  unfold padStart
  intro hc
  rcases List.append_eq_nil.mp hc with ⟨-, h2⟩
  exact h h2

theorem digitsAux_all_digit (fuel : Nat) :
    ∀ n, (digitsAux fuel n).all Char.isDigit = true := by
  induction fuel with
  | zero => intro n; rfl
  | succ fuel ih =>
    intro n
    by_cases h10 : n < 10 <;>
      simp [digitsAux, h10, digitChar_isDigit, List.all_eq_true] <;>
      intro x hx <;>
      first
        | exact List.all_eq_true.mp (ih (n / 10)) x hx
        | skip

theorem natStr_all_digit (n : Nat) : (natStr n).all Char.isDigit = true :=
  digitsAux_all_digit (n + 1) n

theorem padStart_all_digit {w : Nat} {s : Str} (h : s.all Char.isDigit = true) :
    (padStart w s).all Char.isDigit = true := by
  unfold padStart
  simp only [List.all_append, Bool.and_eq_true]
  refine ⟨?_, h⟩
  rw [List.all_eq_true]
  intro x hx
  rw [List.eq_of_mem_replicate hx]
  decide

theorem padStart_length (w : Nat) (s : Str) :
    (padStart w s).length = max w s.length := by
  unfold padStart
  simp [List.length_replicate]
  omega

theorem digitsAux_length_le (fuel : Nat) :
    ∀ n w, n < 10 ^ fuel → n < 10 ^ w → 1 ≤ w → (digitsAux fuel n).length ≤ w := by
  induction fuel with
  | zero => intro n w _ _ _; simp [digitsAux]
  | succ fuel ih =>
    intro n w hf hw h1
    by_cases h10 : n < 10
    · simpa [digitsAux, h10] using h1
    · have hw2 : 2 ≤ w := by
        by_contra hc
        have hw1 : w = 1 := by omega
        subst hw1
        simp at hw
        omega
      have hfd : n / 10 < 10 ^ fuel := by
        rw [pow_succ] at hf; omega
      have hwd : n / 10 < 10 ^ (w - 1) := by
        have : 10 ^ w = 10 ^ (w - 1) * 10 := by
          rw [← pow_succ]
          congr 1
          omega
        rw [this] at hw
        omega
      have := ih (n / 10) (w - 1) hfd hwd (by omega)
      simp [digitsAux, h10]
      omega

theorem natStr_length_le {n w : Nat} (hn : n < 10 ^ w) (h1 : 1 ≤ w) :
    (natStr n).length ≤ w := by
  apply digitsAux_length_le (n + 1) n w _ hn h1
  calc n < 10 ^ n := Nat.lt_pow_self (by norm_num) n
    _ ≤ 10 ^ (n + 1) := Nat.pow_le_pow_right (by norm_num) (Nat.le_succ n)

theorem padName_length {n w : Nat} (hn : n < 10 ^ w) (h1 : 1 ≤ w) :
    (padStart w (natStr n)).length = w := by
  rw [padStart_length]
  have := natStr_length_le hn h1
  omega

/-! ## The allocation search -/

theorem findFree_ge (used : List Str) (p : Str) (w : Nat) :
    ∀ fuel n, n ≤ findFree used p w fuel n := by
  intro fuel
  induction fuel with
  | zero => intro n; simp [findFree]
  | succ fuel ih =>
    intro n
    simp only [findFree]
    split
    · exact le_trans (Nat.le_succ n) (ih (n + 1))
    · exact le_refl n

theorem findFree_of_free (used : List Str) (p : Str) (w : Nat) (fuel n : Nat)
    (h : idName p w n ∉ used) : findFree used p w (fuel + 1) n = n := by
  simp [findFree, h]

theorem findFree_not_mem (used : List Str) (p : Str) (w : Nat) :
    ∀ fuel n, (∃ k, k < fuel ∧ idName p w (n + k) ∉ used) →
      idName p w (findFree used p w fuel n) ∉ used := by
  intro fuel
  induction fuel with
  | zero =>
    intro n h
    rcases h with ⟨k, hk, -⟩
    omega
  | succ fuel ih =>
    intro n h
    rcases h with ⟨k, hk, hfree⟩
    simp only [findFree]
    split
    · rename_i hmem
      apply ih (n + 1)
      rcases Nat.eq_zero_or_pos k with rfl | hpos
      · exact absurd hmem (by simpa using hfree)
      · exact ⟨k - 1, by omega, by rw [show n + 1 + (k - 1) = n + k by omega]; exact hfree⟩
    · rename_i hmem
      exact hmem

theorem exists_free (used : List Str) (p : Str) (w : Nat) (s : Nat) :
    ∃ k, k ≤ used.length ∧ idName p w (s + k) ∉ used := by
  by_contra hc
  push_neg at hc
  have hsub : (Finset.range (used.length + 1)).image (fun k => idName p w (s + k))
      ⊆ used.toFinset := by
    intro x hx
    simp only [Finset.mem_image, Finset.mem_range] at hx
    rcases hx with ⟨k, hk, rfl⟩
    rw [List.mem_toFinset]
    exact hc k (by omega)
  have hcard : ((Finset.range (used.length + 1)).image (fun k => idName p w (s + k))).card
      = used.length + 1 := by
    rw [Finset.card_image_of_injOn, Finset.card_range]
    intro a _ b _ hab
    have := idName_inj hab
    omega
  have h2 := Finset.card_le_card hsub
  have h3 := List.toFinset_card_le used
  omega

theorem allocId_not_mem (used : List Str) (p : Str) (w : Nat) (s : Nat) :
    idName p w (allocId used p w s) ∉ used := by
  apply findFree_not_mem
  rcases exists_free used p w s with ⟨k, hk, hf⟩
  exact ⟨k, by omega, hf⟩

theorem allocId_ge (used : List Str) (p : Str) (w : Nat) (s : Nat) :
    s ≤ allocId used p w s := findFree_ge used p w _ s

theorem allocId_of_free (used : List Str) (p : Str) (w : Nat) (s : Nat)
    (h : idName p w s ∉ used) : allocId used p w s = s :=
  findFree_of_free used p w _ s h

/-! ## Matcher facts -/

theorem stripPre_append (p t : Str) : stripPre p (p ++ t) = some t := by
  induction p with
  | nil => rfl
  | cons c p ih => simp [stripPre, ih]

theorem stripPre_eq_some {p t r : Str} : stripPre p t = some r ↔ t = p ++ r := by
  constructor
  · intro h
    induction p generalizing t with
    | nil => simpa [stripPre] using h
    | cons c p ih =>
      cases t with
      | nil => simp [stripPre] at h
      | cons d t' =>
        simp only [stripPre] at h
        by_cases hcd : c = d
        · rw [if_pos hcd] at h
          subst hcd
          simp [ih h]
        · rw [if_neg hcd] at h
          exact absurd h (by simp)
  · rintro rfl
    exact stripPre_append p r

theorem takeWhile_all_append {q : Char → Bool} {d : Str} (hd : ∀ x ∈ d, q x = true)
    {c : Char} (hc : q c = false) (r : Str) :
    (d ++ c :: r).takeWhile q = d ∧ (d ++ c :: r).dropWhile q = c :: r := by
  induction d with
  | nil => simp [List.takeWhile_cons, List.dropWhile_cons, hc]
  | cons a d ih =>
    have ha : q a = true := hd a (by simp)
    have ih' := ih (fun x hx => hd x (by simp [hx]))
    simp [List.takeWhile_cons, List.dropWhile_cons, ha, ih'.1, ih'.2]

theorem matchExact_nil (p : Str) (w : Nat) : matchExact p w [] = none := by
  cases p with
  | nil =>
    cases w with
    | zero => rfl
    | succ w => rfl
  | cons c p => rfl

theorem matchExact_idName {p : Str} {w n : Nat} (hn : n < 10 ^ w) (h1 : 1 ≤ w) (rest : Str) :
    matchExact p w (idName p w n ++ ':' :: rest)
      = some (idName p w n, rest.dropWhile isWsChar) := by
  unfold matchExact idName
  rw [List.append_assoc, stripPre_append]
  have hlen : (padStart w (natStr n)).length = w := padName_length hn h1
  have htake : (padStart w (natStr n) ++ ':' :: rest).take w = padStart w (natStr n) :=
    List.take_left' hlen
  have hdrop : (padStart w (natStr n) ++ ':' :: rest).drop w = ':' :: rest :=
    List.drop_left' hlen
  simp only [htake, hdrop, hlen, padStart_all_digit (natStr_all_digit n), Bool.and_true,
    decide_True, if_true, decide_eq_true_eq]

theorem matchPlus_idName (p : Str) (w n : Nat) (rest : Str) :
    matchPlus p (idName p w n ++ ':' :: rest)
      = some (padStart w (natStr n), rest.dropWhile isWsChar) := by
  unfold matchPlus idName
  rw [List.append_assoc, stripPre_append]
  have hall : ∀ x ∈ padStart w (natStr n), Char.isDigit x = true :=
    List.all_eq_true.mp (padStart_all_digit (natStr_all_digit n))
  have h := takeWhile_all_append hall (by decide : Char.isDigit ':' = false) rest
  have hne : (padStart w (natStr n)).isEmpty = false := by
    simp [List.isEmpty_iff]
    exact padStart_ne_nil (natStr_ne_nil n)
  simp only [h.1, h.2, hne, Bool.false_eq_true, if_false]

theorem dropWhile_head_false {q : Char → Bool} :
    ∀ {l : List Char} {c : Char} {t : Str}, l.dropWhile q = c :: t → q c = false := by
  intro l
  induction l with
  | nil => intro c t h; simp [List.dropWhile] at h
  | cons a l ih =>
    intro c t h
    rw [List.dropWhile_cons] at h
    by_cases ha : q a
    · rw [if_pos ha] at h
      exact ih h
    · rw [if_neg ha] at h
      injection h with h1 h2
      subst h1
      simpa using ha

theorem dropWhile_trimStr (s : Str) : (trimStr s).dropWhile isWsChar = trimStr s := by
  unfold trimStr
  cases hu : s.dropWhile isWsChar with
  | nil => simp
  | cons c u' =>
    have hc : isWsChar c = false := dropWhile_head_false hu
    rw [List.reverse_cons, List.dropWhile_append]
    by_cases he : (u'.reverse.dropWhile isWsChar).isEmpty
    · rw [if_pos he]
      simp [List.dropWhile_cons, hc]
    · rw [if_neg he]
      rw [List.reverse_append]
      simp [List.dropWhile_cons, hc]

theorem dropWhile_ws_trim (s : Str) :
    (' ' :: trimStr s).dropWhile isWsChar = trimStr s := by
  rw [List.dropWhile_cons]
  simp only [show isWsChar ' ' = true from rfl, if_true]
  exact dropWhile_trimStr s

theorem matchExact_addFinalTitle {p : Str} {w n : Nat} (hn : n < 10 ^ w) (h1 : 1 ≤ w)
    (title : Str) :
    matchExact p w (addFinalTitle p w n title)
      = some (idName p w n, trimStr (stripExact p w title)) := by
  unfold addFinalTitle
  rw [matchExact_idName hn h1, dropWhile_ws_trim]

theorem matchPlus_addFinalTitle (p : Str) (w n : Nat) (title : Str) :
    matchPlus p (addFinalTitle p w n title)
      = some (padStart w (natStr n), trimStr (stripExact p w title)) := by
  unfold addFinalTitle
  rw [matchPlus_idName, dropWhile_ws_trim]

theorem matchExact_isSome_iff (p : Str) (w : Nat) (title : Str) :
    (matchExact p w title).isSome = true ↔
      ∃ d r, title = p ++ d ++ ':' :: r ∧ d.length = w ∧ d.all Char.isDigit = true := by
  constructor
  · intro h
    unfold matchExact at h
    split at h
    · simp at h
    · rename_i t1 hs
      split at h
      · rename_i hcond
        split at h
        · rename_i t3 hd
          rw [Bool.and_eq_true, decide_eq_true_eq] at hcond
          refine ⟨t1.take w, t3, ?_, hcond.1, hcond.2⟩
          have ht1 : t1 = t1.take w ++ ':' :: t3 := by
            conv_lhs => rw [← List.take_append_drop w t1]
            rw [hd]
          rw [stripPre_eq_some.mp hs]
          conv_lhs => rw [ht1]
          simp [List.append_assoc]
        · simp at h
      · simp at h
  · rintro ⟨d, r, rfl, hw, hdig⟩
    unfold matchExact
    rw [List.append_assoc, stripPre_append]
    have htake : (d ++ ':' :: r).take w = d := List.take_left' hw
    have hdrop : (d ++ ':' :: r).drop w = ':' :: r := List.drop_left' hw
    simp [htake, hdrop, hw, hdig]

theorem matchPlus_isSome_iff (p : Str) (title : Str) :
    (matchPlus p title).isSome = true ↔
      ∃ d r, title = p ++ d ++ ':' :: r ∧ d ≠ [] ∧ d.all Char.isDigit = true := by
  constructor
  · intro h
    unfold matchPlus at h
    split at h
    · simp at h
    · rename_i t1 hs
      split at h
      · simp at h
      · rename_i hne
        split at h
        · rename_i t3 hd
          refine ⟨t1.takeWhile Char.isDigit, t3, ?_, ?_, ?_⟩
          · have ht1 : t1 = t1.takeWhile Char.isDigit ++ ':' :: t3 := by
              conv_lhs => rw [← List.takeWhile_append_dropWhile Char.isDigit t1]
              rw [hd]
            rw [stripPre_eq_some.mp hs]
            conv_lhs => rw [ht1]
            simp [List.append_assoc]
          · intro hc
            rw [hc] at hne
            simp at hne
          · rw [List.all_eq_true]
            exact fun x hx => List.mem_takeWhile_imp hx
        · simp at h
  · rintro ⟨d, r, rfl, hne, hdig⟩
    unfold matchPlus
    rw [List.append_assoc, stripPre_append]
    have h := takeWhile_all_append (List.all_eq_true.mp hdig) (by decide : Char.isDigit ':' = false) r
    simp [h.1, h.2, List.isEmpty_iff, hne]

theorem isAlpha_not_isDigit {c : Char} (h : c.isAlpha = true) : c.isDigit = false := by
  simp only [Char.isAlpha, Char.isUpper, Char.isLower, Char.isDigit, Bool.or_eq_true,
    Bool.and_eq_true, decide_eq_true_eq, Char.le_def, UInt32.le_def, BitVec.le_def] at *
  simp only [Bool.and_eq_false_iff, decide_eq_false_iff_not,
    show (UInt32.toBitVec 65).toNat = 65 from by decide,
    show (UInt32.toBitVec 90).toNat = 90 from by decide,
    show (UInt32.toBitVec 97).toNat = 97 from by decide,
    show (UInt32.toBitVec 122).toNat = 122 from by decide,
    show (UInt32.toBitVec 48).toNat = 48 from by decide,
    show (UInt32.toBitVec 57).toNat = 57 from by decide] at *
  omega

theorem parseBaseId_eq_some {b p0 : Str} {bn w : Nat}
    (h : parseBaseId b = some (p0, bn, w)) :
    p0 = b.takeWhile Char.isAlpha ∧ b.dropWhile Char.isAlpha ≠ [] ∧
      (b.dropWhile Char.isAlpha).all Char.isDigit = true ∧
      bn = decValue (b.dropWhile Char.isAlpha) ∧ w = (b.dropWhile Char.isAlpha).length := by
  unfold parseBaseId at h
  split at h
  · rename_i hcond
    rw [Bool.and_eq_true, Bool.not_eq_true'] at hcond
    injection h with h1
    injection h1 with hp hrest
    injection hrest with hbn hw
    refine ⟨hp.symm, ?_, hcond.2, hbn.symm, hw.symm⟩
    intro hnil
    rw [hnil] at hcond
    simp at hcond
  · exact absurd h (by simp)

theorem parseBaseId_wd_pos {b p0 : Str} {bn w : Nat}
    (h : parseBaseId b = some (p0, bn, w)) : 1 ≤ w := by
  obtain ⟨-, hne, -, -, hw⟩ := parseBaseId_eq_some h
  rw [hw]
  cases hd : b.dropWhile Char.isAlpha with
  | nil => exact absurd hd hne
  | cons x xs => simp

theorem getIdPrefixCmp_agrees {b p0 : Str} {bn w : Nat}
    (h : parseBaseId b = some (p0, bn, w)) :
    getIdPrefixCmp b = some (p0, w) := by
  obtain ⟨hp, hne, hdig, -, hw⟩ := parseBaseId_eq_some h
  have hb : b = p0 ++ b.dropWhile Char.isAlpha := by
    rw [hp]
    exact (List.takeWhile_append_dropWhile _ _).symm
  have hdrev : ∀ x ∈ (b.dropWhile Char.isAlpha).reverse, Char.isDigit x = true := by
    intro x hx
    rw [List.mem_reverse] at hx
    exact List.all_eq_true.mp hdig x hx
  have hp0alpha : ∀ x ∈ p0, Char.isAlpha x = true := by
    intro x hx
    rw [hp] at hx
    exact List.mem_takeWhile_imp hx
  have hrevne : (b.dropWhile Char.isAlpha).reverse ≠ [] := by
    simp [hne]
  unfold getIdPrefixCmp
  rw [show b.reverse = (b.dropWhile Char.isAlpha).reverse ++ p0.reverse from by
    rw [show b.reverse = (p0 ++ b.dropWhile Char.isAlpha).reverse from by rw [← hb]]
    exact List.reverse_append _ _]
  cases hp0 : p0.reverse with
  | nil =>
    have hp0nil : p0 = [] := by
      have := congrArg List.reverse hp0
      simpa using this
    rw [List.append_nil]
    rw [List.takeWhile_eq_self_iff.mpr hdrev, List.dropWhile_eq_nil_iff.mpr hdrev]
    rw [if_neg (by simp [List.isEmpty_iff, hrevne])]
    simp [hp0nil, hw]
  | cons c t =>
    have hcp0 : c ∈ p0 := by
      have : c ∈ p0.reverse := by rw [hp0]; simp
      rwa [List.mem_reverse] at this
    have hcd : Char.isDigit c = false := isAlpha_not_isDigit (hp0alpha c hcp0)
    have htk := takeWhile_all_append hdrev hcd t
    rw [htk.1, htk.2]
    rw [if_neg (by simp [List.isEmpty_iff, hrevne])]
    have : (c :: t).reverse = p0 := by
      rw [← hp0]
      simp
    rw [this]
    simp [hw]

/-! ## State discipline of the rewrite pass -/

theorem RunStep_refl (p : Str) (w fb : Nat) (st : St) : RunStep p w fb st st := by
  refine ⟨fun x hx => hx, le_refl _, [], by simp, by simp, by simp⟩

theorem RunStep_trans {p : Str} {w fb : Nat} {st1 st2 st3 : St}
    (h12 : RunStep p w fb st1 st2) (h23 : RunStep p w fb st2 st3) :
    RunStep p w fb st1 st3 := by
  obtain ⟨hu12, hi12, dl1, hl1, hq1, hc1⟩ := h12
  obtain ⟨hu23, hi23, dl2, hl2, hq2, hc2⟩ := h23
  refine ⟨fun x hx => hu23 x (hu12 x hx), le_trans hi12 hi23,
    dl1 ++ dl2, by rw [hl2, hl1, List.append_assoc], ?_, ?_⟩
  · intro q hq
    rcases List.mem_append.mp hq with hmem | hmem
    · obtain ⟨ha, hb, hn, hin, hout⟩ := hq1 q hmem
      exact ⟨ha, by omega, hn, hu23 _ hin, hout⟩
    · obtain ⟨ha, hb, hn, hin, hout⟩ := hq2 q hmem
      refine ⟨by omega, hb, hn, hin, fun hmem1 => hout (hu12 _ hmem1)⟩
  · apply List.Chain'.append hc1 hc2
    intro x hx y hy
    have hxd : x ∈ dl1 := List.mem_of_mem_getLast? hx
    have hyd : y ∈ dl2 := List.mem_of_mem_head? hy
    have h1 := (hq1 x hxd).2.1
    have h2 := (hq2 y hyd).1
    omega

theorem RunStep_alloc (p : Str) (w fb : Nat) (st : St) :
    RunStep p w fb st
      ⟨idName p w (allocId st.used p w (fb + st.localInc)) :: st.used,
        allocId st.used p w (fb + st.localInc) + 1 - fb, true,
        st.log ++ [(idName p w (allocId st.used p w (fb + st.localInc)),
          allocId st.used p w (fb + st.localInc))]⟩ := by
  have hge := allocId_ge st.used p w (fb + st.localInc)
  have hnm := allocId_not_mem st.used p w (fb + st.localInc)
  refine ⟨fun x hx => by simp [hx], by simp; omega,
    [(idName p w (allocId st.used p w (fb + st.localInc)),
      allocId st.used p w (fb + st.localInc))], by simp, ?_, by simp⟩
  intro q hq
  rw [List.mem_singleton] at hq
  subst hq
  refine ⟨hge, by simp; omega, rfl, by simp, hnm⟩

theorem trAdd_run (cfg : AddCfg) (fb : Nat) (e : Ast) (st : St) :
    RunStep cfg.pfx cfg.wd fb st (trAdd cfg fb e st).2 := by
  induction e, st using trAdd.induct cfg fb with
  | case1 c st hT a0 rest hE =>
    simp only [trAdd, hT, hE, if_true]
    exact RunStep_refl _ _ _ _
  | case2 c st hT a0 rest t1 hE hM e1 s1 h1 e2 s2 h2 ih1 ih2 =>
    simp only [trAdd, hT, hE, hM, if_true, h1, h2]
    rw [h1] at ih1
    rw [h2] at ih2
    exact RunStep_trans ih1 ih2
  | case3 c st hT a0 rest t1 hE hM n newId st1 rest' st2 heq ih =>
    simp only [trAdd, hT, hE, hM, if_true, Bool.false_eq_true, if_false, heq]
    rw [heq] at ih
    exact RunStep_trans (RunStep_alloc cfg.pfx cfg.wd fb st) ih
  | case4 c args st hT hnc =>
    cases args with
    | cons a0 rest => exact (hnc a0 rest rfl).elim
    | nil => rw [trAdd.eq_def]; simp only [hT, if_true]; exact RunStep_refl _ _ _ _
    | call c2 a2 => rw [trAdd.eq_def]; simp only [hT, if_true]; exact RunStep_refl _ _ _ _
    | strLit s2 => rw [trAdd.eq_def]; simp only [hT, if_true]; exact RunStep_refl _ _ _ _
    | tmpl q2 e2 => rw [trAdd.eq_def]; simp only [hT, if_true]; exact RunStep_refl _ _ _ _
    | box b2 => rw [trAdd.eq_def]; simp only [hT, if_true]; exact RunStep_refl _ _ _ _
    | leaf => rw [trAdd.eq_def]; simp only [hT, if_true]; exact RunStep_refl _ _ _ _
  | case5 c args st hT e1 s1 h1 ih =>
    rw [trAdd.eq_def]
    simp only [hT, Bool.false_eq_true, if_false, h1]
    rw [h1] at ih
    exact ih
  | case6 s st => exact RunStep_refl _ _ _ _
  | case7 q0 exprs st e1 s1 h1 ih =>
    simp only [trAdd, h1]
    rw [h1] at ih
    exact ih
  | case8 ch st e1 s1 h1 ih =>
    simp only [trAdd, h1]
    rw [h1] at ih
    exact ih
  | case9 st => exact RunStep_refl _ _ _ _
  | case10 st => exact RunStep_refl _ _ _ _
  | case11 hd tl st e1 s1 h1 e2 s2 h2 ih1 ih2 =>
    simp only [trAdd, h1, h2]
    rw [h1] at ih1
    rw [h2] at ih2
    exact RunStep_trans ih1 ih2

theorem trAdd_elig_id {a0 : Ast} {t : Str} (h : eligTitleAdd a0 = some t)
    (cfg : AddCfg) (fb : Nat) (st : St) : trAdd cfg fb a0 st = (a0, st) := by
  cases a0 with
  | strLit s => rfl
  | tmpl q0 exprs =>
    cases exprs with
    | nil => rfl
    | cons h2 t2 => simp [eligTitleAdd] at h
    | call c2 a2 => simp [eligTitleAdd] at h
    | strLit s2 => simp [eligTitleAdd] at h
    | tmpl q2 e2 => simp [eligTitleAdd] at h
    | box b2 => simp [eligTitleAdd] at h
    | leaf => simp [eligTitleAdd] at h
  | call c2 a2 => simp [eligTitleAdd] at h
  | box b2 => simp [eligTitleAdd] at h
  | leaf => simp [eligTitleAdd] at h
  | nil => simp [eligTitleAdd] at h
  | cons h2 t2 => simp [eligTitleAdd] at h

theorem trAdd_id_of_marked (cfg : AddCfg) (fb : Nat) (how : cfg.ow = false) :
    ∀ (e : Ast) (st : St), allMarked cfg e = true → trAdd cfg fb e st = (e, st) := by
  intro e st
  induction e, st using trAdd.induct cfg fb with
  | case1 c st hT a0 rest hE =>
    intro hm
    rw [trAdd.eq_def]
    simp only [hT, hE, if_true]
  | case2 c st hT a0 rest t1 hE hM e1 s1 h1 e2 s2 h2 ih1 ih2 =>
    intro hm
    rw [allMarked.eq_def] at hm
    simp only [hT, hE, if_true] at hm
    rw [Bool.and_eq_true, Bool.and_eq_true] at hm
    have hida : trAdd cfg fb a0 st = (a0, st) := ih1 hm.1.2
    have hida' := hida
    rw [h1] at hida'
    injection hida' with hea hsa
    have hidr : trAdd cfg fb rest s1 = (rest, s1) := ih2 hm.2
    rw [hsa] at hidr
    rw [trAdd.eq_def]
    simp only [hT, hE, hM, if_true, hida, hidr]
  | case3 c st hT a0 rest t1 hE hM n newId st1 rest' st2 heq ih =>
    intro hm
    rw [allMarked.eq_def] at hm
    simp only [hT, hE, if_true] at hm
    rw [Bool.and_eq_true, Bool.and_eq_true] at hm
    rw [how] at hM
    simp [hm.1.1] at hM
  | case4 c args st hT hnc =>
    intro hm
    cases args with
    | cons a0 rest => exact (hnc a0 rest rfl).elim
    | nil => rw [trAdd.eq_def]; simp only [hT, if_true]
    | call c2 a2 => rw [trAdd.eq_def]; simp only [hT, if_true]
    | strLit s2 => rw [trAdd.eq_def]; simp only [hT, if_true]
    | tmpl q2 e2 => rw [trAdd.eq_def]; simp only [hT, if_true]
    | box b2 => rw [trAdd.eq_def]; simp only [hT, if_true]
    | leaf => rw [trAdd.eq_def]; simp only [hT, if_true]
  | case5 c args st hT e1 s1 h1 ih =>
    intro hm
    rw [allMarked.eq_def] at hm
    simp only [hT, Bool.false_eq_true, if_false] at hm
    have := ih (by
      cases args <;> simpa using hm)
    rw [trAdd.eq_def]
    simp only [hT, Bool.false_eq_true, if_false, this]
  | case6 s st => intro hm; rfl
  | case7 q0 exprs st e1 s1 h1 ih =>
    intro hm
    rw [allMarked.eq_def] at hm
    have := ih (by simpa using hm)
    rw [trAdd.eq_def]
    simp only [this]
  | case8 ch st e1 s1 h1 ih =>
    intro hm
    rw [allMarked.eq_def] at hm
    have := ih (by simpa using hm)
    rw [trAdd.eq_def]
    simp only [this]
  | case9 st => intro hm; rfl
  | case10 st => intro hm; rfl
  | case11 hd tl st e1 s1 h1 e2 s2 h2 ih1 ih2 =>
    intro hm
    rw [allMarked.eq_def] at hm
    rw [Bool.and_eq_true] at hm
    have hid1 : trAdd cfg fb hd st = (hd, st) := ih1 hm.1
    have hid1' := hid1
    rw [h1] at hid1'
    injection hid1' with hea hsa
    have hid2 : trAdd cfg fb tl s1 = (tl, s1) := ih2 hm.2
    rw [hsa] at hid2
    rw [trAdd.eq_def]
    simp only [hid1, hid2]

theorem scanAdd_elig {a0 : Ast} {t : Str} (h : eligTitleAdd a0 = some t) (cfg : AddCfg) :
    scanAdd cfg a0 = [] := by
  cases a0 with
  | strLit s => rfl
  | tmpl q0 exprs =>
    cases exprs with
    | nil => rfl
    | cons h2 t2 => simp [eligTitleAdd] at h
    | call c2 a2 => simp [eligTitleAdd] at h
    | strLit s2 => simp [eligTitleAdd] at h
    | tmpl q2 e2 => simp [eligTitleAdd] at h
    | box b2 => simp [eligTitleAdd] at h
    | leaf => simp [eligTitleAdd] at h
  | call c2 a2 => simp [eligTitleAdd] at h
  | box b2 => simp [eligTitleAdd] at h
  | leaf => simp [eligTitleAdd] at h
  | nil => simp [eligTitleAdd] at h
  | cons h2 t2 => simp [eligTitleAdd] at h

theorem allMarked_elig {a0 : Ast} {t : Str} (h : eligTitleAdd a0 = some t) (cfg : AddCfg) :
    allMarked cfg a0 = true := by
  cases a0 with
  | strLit s => rfl
  | tmpl q0 exprs =>
    cases exprs with
    | nil => rfl
    | cons h2 t2 => simp [eligTitleAdd] at h
    | call c2 a2 => simp [eligTitleAdd] at h
    | strLit s2 => simp [eligTitleAdd] at h
    | tmpl q2 e2 => simp [eligTitleAdd] at h
    | box b2 => simp [eligTitleAdd] at h
    | leaf => simp [eligTitleAdd] at h
  | call c2 a2 => simp [eligTitleAdd] at h
  | box b2 => simp [eligTitleAdd] at h
  | leaf => simp [eligTitleAdd] at h
  | nil => simp [eligTitleAdd] at h
  | cons h2 t2 => simp [eligTitleAdd] at h

theorem scanIds_cons (cfg : AddCfg) (hd tl : Ast) :
    scanIds cfg (.cons hd tl) = scanIds cfg hd ++ scanIds cfg tl := by
  unfold scanIds
  rw [scanAdd.eq_def]
  simp [List.map_append]

theorem allMarked_cons (cfg : AddCfg) (hd tl : Ast) :
    allMarked cfg (.cons hd tl) = (allMarked cfg hd && allMarked cfg tl) := by
  rw [allMarked.eq_def]

theorem scanIds_call_not (cfg : AddCfg) {c : Callee} (hT : ¬ isTestAdd c = true)
    (args : Ast) : scanIds cfg (.call c args) = scanIds cfg args := by
  unfold scanIds
  rw [scanAdd.eq_def]
  simp [hT]

theorem allMarked_call_not (cfg : AddCfg) {c : Callee} (hT : ¬ isTestAdd c = true)
    (args : Ast) : allMarked cfg (.call c args) = allMarked cfg args := by
  rw [allMarked.eq_def]
  simp [hT]

theorem scanIds_tmpl (cfg : AddCfg) (q0 : Str) (exprs : Ast) :
    scanIds cfg (.tmpl q0 exprs) = scanIds cfg exprs := by
  unfold scanIds
  rw [scanAdd.eq_def]

theorem allMarked_tmpl (cfg : AddCfg) (q0 : Str) (exprs : Ast) :
    allMarked cfg (.tmpl q0 exprs) = allMarked cfg exprs := by
  rw [allMarked.eq_def]

theorem scanIds_box (cfg : AddCfg) (ch : Ast) :
    scanIds cfg (.box ch) = scanIds cfg ch := by
  unfold scanIds
  rw [scanAdd.eq_def]

theorem allMarked_box (cfg : AddCfg) (ch : Ast) :
    allMarked cfg (.box ch) = allMarked cfg ch := by
  rw [allMarked.eq_def]

theorem scanIds_test (cfg : AddCfg) {c : Callee} (hT : isTestAdd c = true) (a0 rest : Ast) :
    scanIds cfg (.call c (.cons a0 rest)) =
      (match matchExact cfg.pfx cfg.wd ((eligTitleAdd a0).getD []) with
        | some x => [x.1]
        | none => []) ++ (scanIds cfg a0 ++ scanIds cfg rest) := by
  unfold scanIds
  rw [scanAdd.eq_def]
  simp only [hT, if_true, List.map_append]
  cases hmm : matchExact cfg.pfx cfg.wd ((eligTitleAdd a0).getD []) with
  | none => simp
  | some x => simp

theorem scanIds_elig_nil {a0 : Ast} {t : Str} (h : eligTitleAdd a0 = some t) (cfg : AddCfg) :
    scanIds cfg a0 = [] := by
  unfold scanIds
  rw [scanAdd_elig h]
  rfl

theorem allMarked_test (cfg : AddCfg) {c : Callee} (hT : isTestAdd c = true)
    {a0 : Ast} {t : Str} (hE : eligTitleAdd a0 = some t) (rest : Ast) :
    allMarked cfg (.call c (.cons a0 rest)) =
      ((matchExact cfg.pfx cfg.wd t).isSome && allMarked cfg a0 && allMarked cfg rest) := by
  rw [allMarked.eq_def]
  simp only [hT, hE, if_true]

theorem trAdd_inv (cfg : AddCfg) (fb : Nat) (hw : 1 ≤ cfg.wd) :
    ∀ (e : Ast) (st : St),
      (scanIds cfg e).Nodup →
      (∀ id ∈ scanIds cfg e, id ∈ st.used) →
      fb + (trAdd cfg fb e st).2.localInc ≤ 10 ^ cfg.wd →
      (scanIds cfg (trAdd cfg fb e st).1).Nodup ∧
      (∀ id ∈ scanIds cfg (trAdd cfg fb e st).1, id ∈ (trAdd cfg fb e st).2.used) ∧
      (∀ id ∈ scanIds cfg (trAdd cfg fb e st).1, id ∈ st.used → id ∈ scanIds cfg e) ∧
      allMarked cfg (trAdd cfg fb e st).1 = true := by
  intro e st
  induction e, st using trAdd.induct cfg fb with
  | case1 c st hT a0 rest hE =>
    intro hnd hsub hbound
    rw [trAdd.eq_def]
    simp only [hT, hE, if_true]
    refine ⟨hnd, hsub, fun id hid _ => hid, ?_⟩
    rw [allMarked.eq_def]
    simp only [hT, hE, if_true]
  | case2 c st hT a0 rest t1 hE hM e1 s1 h1 e2 s2 h2 ih1 ih2 =>
    intro hnd hsub hbound
    have hMS : (matchExact cfg.pfx cfg.wd t1).isSome = true := by
      have hM' := hM
      rw [Bool.and_eq_true] at hM'
      exact hM'.1
    obtain ⟨m, hm⟩ := Option.isSome_iff_exists.mp hMS
    have hscan : scanIds cfg (Ast.call c (a0.cons rest)) = m.1 :: scanIds cfg rest := by
      rw [scanIds_test cfg hT, hE]
      simp [hm, scanIds_elig_nil hE]
    have hida : trAdd cfg fb a0 st = (a0, st) := trAdd_elig_id hE cfg fb st
    have hida' := hida
    rw [h1] at hida'
    injection hida' with hea hsa
    rw [hsa] at h2 ih2
    have hres : trAdd cfg fb (Ast.call c (a0.cons rest)) st = (Ast.call c (a0.cons e2), s2) := by
      rw [trAdd.eq_def]
      simp only [hT, hE, hM, if_true, hida, h2]
    rw [hres] at hbound ⊢
    dsimp only at hbound ⊢
    rw [hscan] at hnd hsub
    have hndrest : (scanIds cfg rest).Nodup := (List.nodup_cons.mp hnd).2
    have hgood : m.1 ∉ scanIds cfg rest := (List.nodup_cons.mp hnd).1
    have hsubrest : ∀ id ∈ scanIds cfg rest, id ∈ st.used := fun id hid =>
      hsub id (List.mem_cons_of_mem _ hid)
    have hmem1 : m.1 ∈ st.used := hsub m.1 (List.mem_cons_self _ _)
    have hrun2 := trAdd_run cfg fb rest st
    rw [h2] at hrun2
    dsimp only at hrun2
    have hb2 : fb + (trAdd cfg fb rest st).2.localInc ≤ 10 ^ cfg.wd := by
      rw [h2]
      dsimp only
      exact hbound
    have q := ih2 hndrest hsubrest hb2
    rw [h2] at q
    dsimp only at q
    obtain ⟨qnd, qsub, qold, qmk⟩ := q
    have hscan' : scanIds cfg (Ast.call c (a0.cons e2)) = m.1 :: scanIds cfg e2 := by
      rw [scanIds_test cfg hT, hE]
      simp [hm, scanIds_elig_nil hE]
    rw [hscan', hscan]
    refine ⟨?_, ?_, ?_, ?_⟩
    · rw [List.nodup_cons]
      refine ⟨?_, qnd⟩
      intro hin
      exact hgood (qold m.1 hin hmem1)
    · intro id hid
      rcases List.mem_cons.mp hid with rfl | hmem
      · exact hrun2.1 _ hmem1
      · exact qsub id hmem
    · intro id hid hst
      rcases List.mem_cons.mp hid with rfl | hmem
      · exact List.mem_cons_self _ _
      · exact List.mem_cons_of_mem _ (qold id hmem hst)
    · rw [allMarked_test cfg hT (by rw [hE] : eligTitleAdd a0 = some t1) e2]
      rw [Bool.and_eq_true, Bool.and_eq_true]
      exact ⟨⟨hMS, allMarked_elig hE cfg⟩, qmk⟩
  | case3 c st hT a0 rest t1 hE hM n newId st1 rest' st2 heq ih =>
    intro hnd hsub hbound
    have hge : fb + st.localInc ≤ n := allocId_ge st.used cfg.pfx cfg.wd (fb + st.localInc)
    have hfresh : newId ∉ st.used := allocId_not_mem st.used cfg.pfx cfg.wd (fb + st.localInc)
    have hres : trAdd cfg fb (Ast.call c (a0.cons rest)) st
        = (Ast.call c ((Ast.strLit (addFinalTitle cfg.pfx cfg.wd n t1)).cons rest'), st2) := by
      rw [trAdd.eq_def]
      simp only [hT, hE, hM, if_true, Bool.false_eq_true, if_false, heq]
    rw [hres] at hbound ⊢
    dsimp only at hbound ⊢
    have hrun := trAdd_run cfg fb rest st1
    rw [heq] at hrun
    dsimp only at hrun
    have hst1inc : st1.localInc = n + 1 - fb := rfl
    have hply : n + 1 ≤ fb + st2.localInc := by
      have h1 := hrun.2.1
      rw [hst1inc] at h1
      omega
    have hn_lt : n < 10 ^ cfg.wd := by omega
    have hscan : scanIds cfg (Ast.call c (a0.cons rest))
        = (match matchExact cfg.pfx cfg.wd t1 with
            | some x => [x.1] | none => []) ++ scanIds cfg rest := by
      rw [scanIds_test cfg hT, hE]
      simp [scanIds_elig_nil hE]
    rw [hscan] at hnd hsub
    have hndrest : (scanIds cfg rest).Nodup := by
      rcases List.nodup_append.mp hnd with ⟨-, h2', -⟩
      exact h2'
    have hsubrest : ∀ id ∈ scanIds cfg rest, id ∈ st1.used := by
      intro id hid
      have hmem : id ∈ st.used := hsub id (List.mem_append_right _ hid)
      exact List.mem_cons_of_mem _ hmem
    have hb : fb + (trAdd cfg fb rest st1).2.localInc ≤ 10 ^ cfg.wd := by
      rw [heq]
      dsimp only
      exact hbound
    have q := ih hndrest hsubrest hb
    rw [heq] at q
    dsimp only at q
    obtain ⟨qnd, qsub, qold, qmk⟩ := q
    have hEF : eligTitleAdd (Ast.strLit (addFinalTitle cfg.pfx cfg.wd n t1))
        = some (addFinalTitle cfg.pfx cfg.wd n t1) := rfl
    have hmf : matchExact cfg.pfx cfg.wd (addFinalTitle cfg.pfx cfg.wd n t1)
        = some (idName cfg.pfx cfg.wd n, trimStr (stripExact cfg.pfx cfg.wd t1)) :=
      matchExact_addFinalTitle hn_lt hw t1
    have hscan' : scanIds cfg
        (Ast.call c ((Ast.strLit (addFinalTitle cfg.pfx cfg.wd n t1)).cons rest'))
        = newId :: scanIds cfg rest' := by
      rw [scanIds_test cfg hT, hEF]
      simp [hmf, scanIds_elig_nil hEF]
    rw [hscan', hscan]
    have hnewIn : newId ∈ st2.used := hrun.1 _ (List.mem_cons_self _ _)
    refine ⟨?_, ?_, ?_, ?_⟩
    · rw [List.nodup_cons]
      refine ⟨?_, qnd⟩
      intro hin
      have hmem : newId ∈ scanIds cfg rest := qold _ hin (List.mem_cons_self _ _)
      exact hfresh (hsub _ (List.mem_append_right _ hmem))
    · intro id hid
      rcases List.mem_cons.mp hid with rfl | hmem
      · exact hnewIn
      · exact qsub id hmem
    · intro id hid hst
      rcases List.mem_cons.mp hid with rfl | hmem
      · exact (hfresh hst).elim
      · have hmem1 : id ∈ st1.used := List.mem_cons_of_mem _ hst
        exact List.mem_append_right _ (qold id hmem hmem1)
    · rw [allMarked_test cfg hT hEF rest']
      rw [Bool.and_eq_true, Bool.and_eq_true]
      refine ⟨⟨?_, rfl⟩, qmk⟩
      rw [hmf]
      rfl
  | case4 c args st hT hnc =>
    intro hnd hsub hbound
    cases args with
    | cons a0 rest => exact (hnc a0 rest rfl).elim
    | nil =>
      rw [trAdd.eq_def]
      simp only [hT, if_true]
      refine ⟨hnd, hsub, fun id hid _ => hid, ?_⟩
      rw [allMarked.eq_def]
      simp only [hT, if_true]
    | call c2 a2 =>
      rw [trAdd.eq_def]
      simp only [hT, if_true]
      refine ⟨hnd, hsub, fun id hid _ => hid, ?_⟩
      rw [allMarked.eq_def]
      simp only [hT, if_true]
    | strLit s2 =>
      rw [trAdd.eq_def]
      simp only [hT, if_true]
      refine ⟨hnd, hsub, fun id hid _ => hid, ?_⟩
      rw [allMarked.eq_def]
      simp only [hT, if_true]
    | tmpl q2 e2 =>
      rw [trAdd.eq_def]
      simp only [hT, if_true]
      refine ⟨hnd, hsub, fun id hid _ => hid, ?_⟩
      rw [allMarked.eq_def]
      simp only [hT, if_true]
    | box b2 =>
      rw [trAdd.eq_def]
      simp only [hT, if_true]
      refine ⟨hnd, hsub, fun id hid _ => hid, ?_⟩
      rw [allMarked.eq_def]
      simp only [hT, if_true]
    | leaf =>
      rw [trAdd.eq_def]
      simp only [hT, if_true]
      refine ⟨hnd, hsub, fun id hid _ => hid, ?_⟩
      rw [allMarked.eq_def]
      simp only [hT, if_true]
  | case5 c args st hT e1 s1 h1 ih =>
    intro hnd hsub hbound
    rw [scanIds_call_not cfg hT] at hnd hsub
    have hres : trAdd cfg fb (Ast.call c args) st = (Ast.call c e1, s1) := by
      rw [trAdd.eq_def]
      simp only [hT, Bool.false_eq_true, if_false, h1]
    rw [hres] at hbound ⊢
    dsimp only at hbound ⊢
    have hb : fb + (trAdd cfg fb args st).2.localInc ≤ 10 ^ cfg.wd := by
      rw [h1]
      dsimp only
      exact hbound
    have q := ih hnd hsub hb
    rw [h1] at q
    dsimp only at q
    obtain ⟨qnd, qsub, qold, qmk⟩ := q
    rw [scanIds_call_not cfg hT e1, scanIds_call_not cfg hT args,
      allMarked_call_not cfg hT e1]
    exact ⟨qnd, qsub, qold, qmk⟩
  | case6 s st =>
    intro hnd hsub hbound
    exact ⟨hnd, hsub, fun id hid _ => hid, rfl⟩
  | case7 q0 exprs st e1 s1 h1 ih =>
    intro hnd hsub hbound
    rw [scanIds_tmpl] at hnd hsub
    have hres : trAdd cfg fb (Ast.tmpl q0 exprs) st = (Ast.tmpl q0 e1, s1) := by
      rw [trAdd.eq_def]
      simp only [h1]
    rw [hres] at hbound ⊢
    dsimp only at hbound ⊢
    have hb : fb + (trAdd cfg fb exprs st).2.localInc ≤ 10 ^ cfg.wd := by
      rw [h1]
      dsimp only
      exact hbound
    have q := ih hnd hsub hb
    rw [h1] at q
    dsimp only at q
    obtain ⟨qnd, qsub, qold, qmk⟩ := q
    rw [scanIds_tmpl cfg q0 e1, scanIds_tmpl cfg q0 exprs, allMarked_tmpl cfg q0 e1]
    exact ⟨qnd, qsub, qold, qmk⟩
  | case8 ch st e1 s1 h1 ih =>
    intro hnd hsub hbound
    rw [scanIds_box] at hnd hsub
    have hres : trAdd cfg fb (Ast.box ch) st = (Ast.box e1, s1) := by
      rw [trAdd.eq_def]
      simp only [h1]
    rw [hres] at hbound ⊢
    dsimp only at hbound ⊢
    have hb : fb + (trAdd cfg fb ch st).2.localInc ≤ 10 ^ cfg.wd := by
      rw [h1]
      dsimp only
      exact hbound
    have q := ih hnd hsub hb
    rw [h1] at q
    dsimp only at q
    obtain ⟨qnd, qsub, qold, qmk⟩ := q
    rw [scanIds_box cfg e1, scanIds_box cfg ch, allMarked_box cfg e1]
    exact ⟨qnd, qsub, qold, qmk⟩
  | case9 st =>
    intro hnd hsub hbound
    exact ⟨hnd, hsub, fun id hid _ => hid, rfl⟩
  | case10 st =>
    intro hnd hsub hbound
    exact ⟨hnd, hsub, fun id hid _ => hid, rfl⟩
  | case11 hd tl st e1 s1 h1 e2 s2 h2 ih1 ih2 =>
    intro hnd hsub hbound
    rw [scanIds_cons] at hnd hsub
    rw [List.nodup_append] at hnd
    obtain ⟨hnd1, hnd2, hdisj⟩ := hnd
    have hsub1 : ∀ id ∈ scanIds cfg hd, id ∈ st.used := fun id hid =>
      hsub id (List.mem_append_left _ hid)
    have hsub2 : ∀ id ∈ scanIds cfg tl, id ∈ st.used := fun id hid =>
      hsub id (List.mem_append_right _ hid)
    have hres : trAdd cfg fb (Ast.cons hd tl) st = (Ast.cons e1 e2, s2) := by
      rw [trAdd.eq_def]
      simp only [h1, h2]
    rw [hres] at hbound ⊢
    dsimp only at hbound
    have hrun1 := trAdd_run cfg fb hd st
    rw [h1] at hrun1
    dsimp only at hrun1
    have hrun2 := trAdd_run cfg fb tl s1
    rw [h2] at hrun2
    dsimp only at hrun2
    have hb1 : fb + (trAdd cfg fb hd st).2.localInc ≤ 10 ^ cfg.wd := by
      rw [h1]
      dsimp only
      have := hrun2.2.1
      omega
    have hb2 : fb + (trAdd cfg fb tl s1).2.localInc ≤ 10 ^ cfg.wd := by
      rw [h2]
      dsimp only
      exact hbound
    have q1 := ih1 hnd1 hsub1 hb1
    rw [h1] at q1
    dsimp only at q1
    have hsub2' : ∀ id ∈ scanIds cfg tl, id ∈ s1.used := fun id hid =>
      hrun1.1 id (hsub2 id hid)
    have q2 := ih2 hnd2 hsub2' hb2
    rw [h2] at q2
    dsimp only at q2
    obtain ⟨q1nd, q1sub, q1old, q1mk⟩ := q1
    obtain ⟨q2nd, q2sub, q2old, q2mk⟩ := q2
    simp only [scanIds_cons, allMarked_cons]
    refine ⟨?_, ?_, ?_, ?_⟩
    · rw [List.nodup_append]
      refine ⟨q1nd, q2nd, ?_⟩
      intro id hid1 hid2
      have hids1 : id ∈ s1.used := q1sub id hid1
      have hidtl : id ∈ scanIds cfg tl := q2old id hid2 hids1
      by_cases hst : id ∈ st.used
      · exact hdisj (q1old id hid1 hst) hidtl
      · exact hst (hsub2 id hidtl)
    · intro id hid
      rcases List.mem_append.mp hid with hmem | hmem
      · exact hrun2.1 id (q1sub id hmem)
      · exact q2sub id hmem
    · intro id hid hst
      rcases List.mem_append.mp hid with hmem | hmem
      · exact List.mem_append_left _ (q1old id hmem hst)
      · exact List.mem_append_right _ (q2old id hmem (hrun1.1 id hst))
    · rw [Bool.and_eq_true]
      exact ⟨q1mk, q2mk⟩

theorem addFilesGo_run (cfg : AddCfg) :
    ∀ (fs : List SrcFile) (tI : Nat) (used : List Str),
      (∀ x ∈ used, x ∈ (addFilesGo cfg fs tI used).2.2.2) ∧
      tI ≤ (addFilesGo cfg fs tI used).2.2.1 ∧
      (∀ q ∈ (addFilesGo cfg fs tI used).2.1,
        cfg.baseNum + tI ≤ q.2 ∧ q.2 < cfg.baseNum + (addFilesGo cfg fs tI used).2.2.1 ∧
        q.1 = idName cfg.pfx cfg.wd q.2 ∧ q.1 ∈ (addFilesGo cfg fs tI used).2.2.2 ∧
        q.1 ∉ used) ∧
      List.Chain' (fun a b => a.2 < b.2) (addFilesGo cfg fs tI used).2.1 := by
  intro fs
  induction fs with
  | nil =>
    intro tI used
    refine ⟨fun x hx => hx, le_refl _, ?_, ?_⟩
    · intro q hq
      simp [addFilesGo] at hq
    · simp [addFilesGo]
  | cons f fs ih =>
    intro tI used
    rcases hre : trAdd cfg (cfg.baseNum + tI) f.tree ⟨used, 0, false, []⟩ with ⟨tree', st'⟩
    have hrun := trAdd_run cfg (cfg.baseNum + tI) f.tree ⟨used, 0, false, []⟩
    rw [hre] at hrun
    dsimp only at hrun
    obtain ⟨hu1, hi1, dl, hlog, hdl, hch⟩ := hrun
    rw [List.nil_append] at hlog
    have hrec := ih (tI + st'.localInc) st'.used
    simp only [addFilesGo, hre]
    obtain ⟨ru, ri, rq, rc⟩ := hrec
    refine ⟨?_, ?_, ?_, ?_⟩
    · intro x hx
      exact ru x (hu1 x hx)
    · omega
    · intro q hq
      rw [hlog] at hq
      rcases List.mem_append.mp hq with hmem | hmem
      · obtain ⟨ha, hb, hn, hin, hout⟩ := hdl q hmem
        refine ⟨by omega, by omega, hn, ru _ hin, hout⟩
      · obtain ⟨ha, hb, hn, hin, hout⟩ := rq q hmem
        refine ⟨by omega, hb, hn, hin, fun hx => hout (hu1 _ hx)⟩
    · rw [hlog]
      apply List.Chain'.append hch rc
      intro x hx y hy
      have hxd := (hdl x (List.mem_of_mem_getLast? hx)).2.1
      have hyd := (rq y (List.mem_of_mem_head? hy)).1
      omega

theorem scanIdsFiles_nil (cfg : AddCfg) : scanIdsFiles cfg [] = [] := rfl

theorem scanIdsFiles_cons (cfg : AddCfg) (f : SrcFile) (fs : List SrcFile) :
    scanIdsFiles cfg (f :: fs) = scanIds cfg f.tree ++ scanIdsFiles cfg fs := rfl

theorem addFilesGo_inv (cfg : AddCfg) (hw : 1 ≤ cfg.wd) :
    ∀ (fs : List SrcFile) (tI : Nat) (used : List Str),
      (scanIdsFiles cfg fs).Nodup →
      (∀ id ∈ scanIdsFiles cfg fs, id ∈ used) →
      cfg.baseNum + (addFilesGo cfg fs tI used).2.2.1 ≤ 10 ^ cfg.wd →
      (scanIdsFiles cfg ((addFilesGo cfg fs tI used).1.map Prod.fst)).Nodup ∧
      (∀ id ∈ scanIdsFiles cfg ((addFilesGo cfg fs tI used).1.map Prod.fst),
        id ∈ (addFilesGo cfg fs tI used).2.2.2) ∧
      (∀ id ∈ scanIdsFiles cfg ((addFilesGo cfg fs tI used).1.map Prod.fst),
        id ∈ used → id ∈ scanIdsFiles cfg fs) ∧
      (∀ fo ∈ (addFilesGo cfg fs tI used).1, allMarked cfg fo.1.tree = true) := by
  intro fs
  induction fs with
  | nil =>
    intro tI used hnd hsub hbound
    refine ⟨?_, ?_, ?_, ?_⟩
    · simp [addFilesGo, scanIdsFiles_nil]
    · intro id hid
      simp [addFilesGo, scanIdsFiles_nil] at hid
    · intro id hid
      simp [addFilesGo, scanIdsFiles_nil] at hid
    · intro fo hfo
      simp [addFilesGo] at hfo
  | cons f fs ih =>
    intro tI used hnd hsub hbound
    rw [scanIdsFiles_cons] at hnd hsub
    rw [List.nodup_append] at hnd
    obtain ⟨hnd1, hnd2, hdisj⟩ := hnd
    have hsub1 : ∀ id ∈ scanIds cfg f.tree, id ∈ used := fun id hid =>
      hsub id (List.mem_append_left _ hid)
    have hsub2 : ∀ id ∈ scanIdsFiles cfg fs, id ∈ used := fun id hid =>
      hsub id (List.mem_append_right _ hid)
    rcases hre : trAdd cfg (cfg.baseNum + tI) f.tree ⟨used, 0, false, []⟩ with ⟨tree', st'⟩
    have hrun := trAdd_run cfg (cfg.baseNum + tI) f.tree ⟨used, 0, false, []⟩
    rw [hre] at hrun
    dsimp only at hrun
    have hrec_run := addFilesGo_run cfg fs (tI + st'.localInc) st'.used
    simp only [addFilesGo, hre] at hbound ⊢
    have hb1 : cfg.baseNum + tI + (trAdd cfg (cfg.baseNum + tI) f.tree
        ⟨used, 0, false, []⟩).2.localInc ≤ 10 ^ cfg.wd := by
      rw [hre]
      dsimp only
      have := hrec_run.2.1
      omega
    have q1 := trAdd_inv cfg (cfg.baseNum + tI) hw f.tree ⟨used, 0, false, []⟩ hnd1
      (by intro id hid; exact hsub1 id hid) hb1
    rw [hre] at q1
    dsimp only at q1
    obtain ⟨q1nd, q1sub, q1old, q1mk⟩ := q1
    have hsub2' : ∀ id ∈ scanIdsFiles cfg fs, id ∈ st'.used := fun id hid =>
      hrun.1 id (hsub2 id hid)
    have q2 := ih (tI + st'.localInc) st'.used hnd2 hsub2' hbound
    obtain ⟨q2nd, q2sub, q2old, q2mk⟩ := q2
    refine ⟨?_, ?_, ?_, ?_⟩
    · rw [List.map_cons, scanIdsFiles_cons]
      rw [List.nodup_append]
      refine ⟨q1nd, q2nd, ?_⟩
      intro id hid1 hid2
      have hids1 : id ∈ st'.used := q1sub id hid1
      have hidtl : id ∈ scanIdsFiles cfg fs := q2old id hid2 hids1
      by_cases hst : id ∈ used
      · exact hdisj (q1old id hid1 hst) hidtl
      · exact hst (hsub2 id hidtl)
    · intro id hid
      rw [List.map_cons, scanIdsFiles_cons] at hid
      rcases List.mem_append.mp hid with hmem | hmem
      · exact (addFilesGo_run cfg fs (tI + st'.localInc) st'.used).1 id (q1sub id hmem)
      · exact q2sub id hmem
    · intro id hid hst
      rw [List.map_cons, scanIdsFiles_cons] at hid
      rw [scanIdsFiles_cons]
      rcases List.mem_append.mp hid with hmem | hmem
      · exact List.mem_append_left _ (q1old id hmem hst)
      · exact List.mem_append_right _ (q2old id hmem (hrun.1 id hst))
    · intro fo hfo
      rcases List.mem_cons.mp hfo with rfl | hmem
      · exact q1mk
      · exact q2mk fo hmem

theorem addFilesGo_id_of_marked (cfg : AddCfg) (how : cfg.ow = false) :
    ∀ (fs : List SrcFile) (tI : Nat) (used : List Str),
      (∀ f ∈ fs, allMarked cfg f.tree = true) →
      addFilesGo cfg fs tI used = (fs.map (fun f => (f, false)), [], tI, used) := by
  intro fs
  induction fs with
  | nil => intro tI used hmk; rfl
  | cons f fs ih =>
    intro tI used hmk
    have hid := trAdd_id_of_marked cfg (cfg.baseNum + tI) how f.tree ⟨used, 0, false, []⟩
      (hmk f (List.mem_cons_self _ _))
    simp only [addFilesGo, hid, Nat.add_zero, List.nil_append]
    rw [ih tI used (fun g hg => hmk g (List.mem_cons_of_mem _ hg))]
    simp

/-! ## Registry facts -/

theorem grpLen_regAdd (r : Reg) (id : Str) (ft : Str × Str) (id' : Str) :
    grpLen (regAdd r id ft) id' = grpLen r id' + (if id = id' then 1 else 0) := by
  induction r with
  | nil =>
    simp only [regAdd, grpLen]
    split_ifs <;> simp [grpLen]
  | cons p rest ih =>
    obtain ⟨k, l⟩ := p
    simp only [regAdd]
    by_cases hk : k = id
    · rw [if_pos hk]
      subst hk
      simp only [grpLen]
      split_ifs with h2 <;> simp <;> omega
    · rw [if_neg hk]
      simp only [grpLen, ih]
      omega

theorem grpLen_foldl (occs : List (Str × Str × Str)) :
    ∀ (r : Reg) (id : Str),
      grpLen (occs.foldl (fun r o => regAdd r o.1 (o.2.1, o.2.2)) r) id
        = grpLen r id + (occs.map (fun o => o.1)).count id := by
  induction occs with
  | nil => intro r id; simp
  | cons o os ih =>
    intro r id
    simp only [List.foldl_cons, List.map_cons]
    rw [ih, grpLen_regAdd, List.count_cons]
    simp only [beq_iff_eq]
    split_ifs with h1 h2 h3 <;> omega

theorem grpLen_buildReg (occs : List (Str × Str × Str)) (id : Str) :
    grpLen (buildReg occs) id = (occs.map (fun o => o.1)).count id := by
  unfold buildReg
  rw [grpLen_foldl]
  simp [grpLen]

theorem grpLen_zero_of_not_mem : ∀ (r : Reg) (id : Str),
    id ∉ r.map Prod.fst → grpLen r id = 0 := by
  intro r
  induction r with
  | nil => intro id h; rfl
  | cons p rest ih =>
    intro id h
    obtain ⟨k, l⟩ := p
    simp only [List.map_cons, List.mem_cons] at h
    push_neg at h
    simp only [grpLen, ih id h.2]
    rw [if_neg (by intro hc; exact h.1 hc.symm)]

theorem entry_len_le_grpLen : ∀ (r : Reg) (p : Str × List (Str × Str)),
    p ∈ r → p.2.length ≤ grpLen r p.1 := by
  intro r
  induction r with
  | nil => intro p h; simp at h
  | cons q rest ih =>
    intro p h
    obtain ⟨k, l⟩ := q
    rcases List.mem_cons.mp h with rfl | hmem
    · simp [grpLen]
    · simp only [grpLen]
      have := ih p hmem
      split_ifs <;> omega

theorem keys_regAdd (r : Reg) (id : Str) (ft : Str × Str) :
    (regAdd r id ft).map Prod.fst =
      if id ∈ r.map Prod.fst then r.map Prod.fst else r.map Prod.fst ++ [id] := by
  induction r with
  | nil => simp [regAdd]
  | cons p rest ih =>
    obtain ⟨k, l⟩ := p
    simp only [regAdd]
    by_cases hk : k = id
    · subst hk
      simp
    · rw [if_neg hk]
      simp only [List.map_cons, ih]
      by_cases hmem : id ∈ rest.map Prod.fst
      · rw [if_pos hmem, if_pos (by simp [hmem])]
      · rw [if_neg hmem, if_neg (by
          simp only [List.mem_cons]
          push_neg
          exact ⟨fun hc => hk hc.symm, hmem⟩)]
        simp

theorem keys_nodup_regAdd (r : Reg) (id : Str) (ft : Str × Str)
    (h : (r.map Prod.fst).Nodup) : ((regAdd r id ft).map Prod.fst).Nodup := by
  rw [keys_regAdd]
  split_ifs with hmem
  · exact h
  · rw [List.nodup_append]
    exact ⟨h, List.nodup_singleton _, by
      intro x hx hx1
      rw [List.mem_singleton] at hx1
      subst hx1
      exact hmem hx⟩

theorem buildReg_keys_nodup (occs : List (Str × Str × Str)) :
    ((buildReg occs).map Prod.fst).Nodup := by
  unfold buildReg
  suffices h : ∀ (r : Reg), (r.map Prod.fst).Nodup →
      ((occs.foldl (fun r o => regAdd r o.1 (o.2.1, o.2.2)) r).map Prod.fst).Nodup by
    exact h [] (by simp)
  induction occs with
  | nil => intro r hr; exact hr
  | cons o os ih =>
    intro r hr
    exact ih _ (keys_nodup_regAdd r o.1 _ hr)

theorem grpLen_le_one_of (r : Reg) (hk : (r.map Prod.fst).Nodup)
    (hlen : ∀ p ∈ r, p.2.length ≤ 1) : ∀ id, grpLen r id ≤ 1 := by
  induction r with
  | nil => intro id; simp [grpLen]
  | cons p rest ih =>
    intro id
    obtain ⟨k, l⟩ := p
    simp only [List.map_cons, List.nodup_cons] at hk
    simp only [grpLen]
    by_cases hkid : k = id
    · rw [if_pos hkid]
      subst hkid
      have h0 : grpLen rest k = 0 := grpLen_zero_of_not_mem rest k hk.1
      have h1 : l.length ≤ 1 := hlen (k, l) (List.mem_cons_self _ _)
      omega
    · rw [if_neg hkid]
      have := ih hk.2 (fun p hp => hlen p (List.mem_cons_of_mem _ hp)) id
      omega

theorem mem_keys_of_grpLen_pos : ∀ (r : Reg) (id : Str),
    0 < grpLen r id → id ∈ r.map Prod.fst := by
  intro r
  induction r with
  | nil => intro id h; simp [grpLen] at h
  | cons p rest ih =>
    intro id h
    obtain ⟨k, l⟩ := p
    simp only [grpLen] at h
    simp only [List.map_cons, List.mem_cons]
    by_cases hk : k = id
    · exact Or.inl hk.symm
    · rw [if_neg hk] at h
      exact Or.inr (ih id (by omega))

theorem count_bridge (a : Str) (l : List Str) :
    @List.count Str instBEqOfDecidableEq a l = @List.count Str List.instBEq a l := by
  induction l with
  | nil => rfl
  | cons b t ih =>
    rw [@List.count_cons Str instBEqOfDecidableEq, @List.count_cons Str List.instBEq, ih]
    congr 1
    by_cases h : b = a
    · subst h
      simp
    · simp [h]

theorem dupEntries_nil_iff (occs : List (Str × Str × Str)) :
    dupEntries (buildReg occs) = [] ↔ (occs.map (fun o => o.1)).Nodup := by
  constructor
  · intro h
    rw [List.nodup_iff_count_le_one]
    intro a
    rw [count_bridge, ← grpLen_buildReg]
    apply grpLen_le_one_of _ (buildReg_keys_nodup occs)
    intro p hp
    by_contra hc
    push_neg at hc
    have hmem : p ∈ dupEntries (buildReg occs) :=
      List.mem_filter.mpr ⟨hp, by simp; omega⟩
    rw [h] at hmem
    simp at hmem
  · intro h
    unfold dupEntries
    rw [List.filter_eq_nil_iff]
    intro p hp
    simp only [decide_eq_true_eq]
    push_neg
    have h1 := entry_len_le_grpLen _ p hp
    have h2 : grpLen (buildReg occs) p.1 ≤ 1 := by
      rw [grpLen_buildReg, ← count_bridge]
      exact List.nodup_iff_count_le_one.mp h p.1
    omega

theorem mem_buildReg_keys (occs : List (Str × Str × Str)) (id : Str)
    (h : id ∈ occs.map (fun o => o.1)) : id ∈ (buildReg occs).map Prod.fst := by
  apply mem_keys_of_grpLen_pos
  rw [grpLen_buildReg]
  exact List.count_pos_iff_mem.mpr h

theorem occs_ids_eq_scanIdsFiles (cfg : AddCfg) (files : List SrcFile) :
    ((files.foldr (fun f acc => scanFileAdd cfg f ++ acc) []).map (fun o => o.1))
      = scanIdsFiles cfg files := by
  induction files with
  | nil => rfl
  | cons f fs ih =>
    simp only [List.foldr_cons, List.map_append, ih, scanIdsFiles_cons]
    congr 1
    unfold scanFileAdd scanIds
    rw [List.map_map]
    rfl

/-- C7 (corrected): running add a second time with the same seed and
overwrite disabled immediately after a successful add is a complete no-op
— provided every identifier allocated by the first run fits the seed's
width (the final cursor stays within 10^width).  The second run passes
the duplicate gate, skips every declaration, flags no file changed and
rewrites nothing.  Without the width condition the claim is false
(see the counterexample). -/
theorem c7_idempotent_within_width (bid : Str) (files : List SrcFile) (p0 : Str) (bn w : Nat)
    (outs : List (SrcFile × Bool)) (log : List (Str × Nat)) (tI : Nat) (usedF : List Str)
    (hparse : parseBaseId bid = some (p0, bn, w))
    (h1 : addMain bid false files = .done outs log tI usedF)
    (hfit : bn + tI ≤ 10 ^ w) :
    ∃ usedF2, addMain bid false (outs.map Prod.fst)
      = .done ((outs.map Prod.fst).map (fun f => (f, false))) [] 0 usedF2 := by
  have hw1 : 1 ≤ w := parseBaseId_wd_pos hparse
  unfold addMain at h1
  rw [hparse] at h1
  simp only at h1
  by_cases hdup : (dupEntries (buildReg (files.foldr
      (fun f acc => scanFileAdd ⟨p0, w, bn, false⟩ f ++ acc) []))).isEmpty = true
  · rw [if_pos hdup] at h1
    rw [AddOut.done.injEq] at h1
    obtain ⟨houts, hlog, htI, husedF⟩ := h1
    have hnodup1 : (scanIdsFiles ⟨p0, w, bn, false⟩ files).Nodup := by
      rw [← occs_ids_eq_scanIdsFiles]
      exact (dupEntries_nil_iff _).mp (List.isEmpty_iff.mp hdup)
    have hsub1 : ∀ id ∈ scanIdsFiles ⟨p0, w, bn, false⟩ files,
        id ∈ (buildReg (files.foldr
          (fun f acc => scanFileAdd ⟨p0, w, bn, false⟩ f ++ acc) [])).map Prod.fst := by
      intro id hid
      apply mem_buildReg_keys
      rw [occs_ids_eq_scanIdsFiles]
      exact hid
    have hbound : (⟨p0, w, bn, false⟩ : AddCfg).baseNum + (addFilesGo ⟨p0, w, bn, false⟩
        files 0 ((buildReg (files.foldr
          (fun f acc => scanFileAdd ⟨p0, w, bn, false⟩ f ++ acc) [])).map Prod.fst)).2.2.1
        ≤ 10 ^ (⟨p0, w, bn, false⟩ : AddCfg).wd := by
      dsimp only
      rw [htI]
      exact hfit
    have hinv := addFilesGo_inv ⟨p0, w, bn, false⟩ hw1 files 0 _ hnodup1 hsub1 hbound
    obtain ⟨hnd2, hsub2, hold2, hmk2⟩ := hinv
    rw [houts] at hnd2 hmk2
    have hmarked : ∀ f ∈ outs.map Prod.fst, allMarked ⟨p0, w, bn, false⟩ f.tree = true := by
      intro f hf
      rcases List.mem_map.mp hf with ⟨fo, hfo, rfl⟩
      exact hmk2 fo hfo
    unfold addMain
    rw [hparse]
    simp only
    have hgate : (dupEntries (buildReg ((outs.map Prod.fst).foldr
        (fun f acc => scanFileAdd ⟨p0, w, bn, false⟩ f ++ acc) []))).isEmpty = true := by
      rw [List.isEmpty_iff]
      rw [dupEntries_nil_iff, occs_ids_eq_scanIdsFiles]
      exact hnd2
    rw [if_pos hgate]
    rw [addFilesGo_id_of_marked ⟨p0, w, bn, false⟩ rfl (outs.map Prod.fst) 0 _ hmarked]
    exact ⟨_, rfl⟩
  · rw [if_neg hdup] at h1
    exact absurd h1 (by simp)

/-- C7: counterexample to the claim as stated.  With seed "T9" (width 1)
and two fresh declarations, the first add allocates T9 and T10; "T10"
does not fit the width-1 matcher, so the second add does not recognize it,
allocates T10 again and rewrites the file to "T10: T10: b" — the second
run is not a no-op. -/
theorem c7_counterexample :
    addMain ['T', '9'] false
        [⟨['f'], .cons (itDecl (.strLit ['a'])) (.cons (itDecl (.strLit ['b'])) .nil)⟩]
      = .done [(⟨['f'], .cons (itDecl (.strLit ['T', '9', ':', ' ', 'a']))
          (.cons (itDecl (.strLit ['T', '1', '0', ':', ' ', 'b'])) .nil)⟩, true)]
        [(['T', '9'], 9), (['T', '1', '0'], 10)] 2 [['T', '1', '0'], ['T', '9']] ∧
    addMain ['T', '9'] false
        [⟨['f'], .cons (itDecl (.strLit ['T', '9', ':', ' ', 'a']))
          (.cons (itDecl (.strLit ['T', '1', '0', ':', ' ', 'b'])) .nil)⟩]
      = .done [(⟨['f'], .cons (itDecl (.strLit ['T', '9', ':', ' ', 'a']))
          (.cons (itDecl (.strLit ['T', '1', '0', ':', ' ', 'T', '1', '0', ':', ' ', 'b']))
            .nil)⟩, true)]
        [(['T', '1', '0'], 10)] 2 [['T', '1', '0'], ['T', '9']] ∧
    (Ast.cons (itDecl (.strLit ['T', '9', ':', ' ', 'a']))
        (.cons (itDecl (.strLit ['T', '1', '0', ':', ' ', 'T', '1', '0', ':', ' ', 'b'])) .nil)
      ≠ .cons (itDecl (.strLit ['T', '9', ':', ' ', 'a']))
          (.cons (itDecl (.strLit ['T', '1', '0', ':', ' ', 'b'])) .nil)) := by
  refine ⟨by decide, by decide, by decide⟩

/-- C7: witness for the amended theorem at a concrete input. -/
theorem c7_idempotent_within_width_witness :
    ∃ usedF2,
      addMain ['T', '1'] false
          ([(⟨['f'], Ast.cons (itDecl (.strLit ['T', '1', ':', ' ', 'a'])) Ast.nil⟩, true)].map
            Prod.fst)
        = .done (([(⟨['f'], Ast.cons (itDecl (.strLit ['T', '1', ':', ' ', 'a'])) Ast.nil⟩,
            true)].map Prod.fst).map (fun f => (f, false))) [] 0 usedF2 :=
  c7_idempotent_within_width ['T', '1']
    [⟨['f'], Ast.cons (itDecl (.strLit ['a'])) Ast.nil⟩] ['T'] 1 1
    [(⟨['f'], Ast.cons (itDecl (.strLit ['T', '1', ':', ' ', 'a'])) Ast.nil⟩, true)]
    [(['T', '1'], 1)] 1 [['T', '1']]
    (by decide) (by decide) (by decide)

/-- C9 (confirmed): throughout an add run the allocation cursor only moves
forward — the allocated numbers are strictly increasing in assignment
order — no identifier is ever assigned twice, every assigned identifier
was fresh (not among the identifiers observed by the scan), and both the
observed and the assigned identifiers are in the used set when the run
ends. -/
theorem c9_cursor_monotone_no_reuse (bid : Str) (ow : Bool) (files : List SrcFile)
    (p0 : Str) (bn w : Nat) (outs : List (SrcFile × Bool)) (log : List (Str × Nat))
    (tI : Nat) (usedF : List Str)
    (hparse : parseBaseId bid = some (p0, bn, w))
    (hrun : addMain bid ow files = .done outs log tI usedF) :
    List.Chain' (fun a b => a.2 < b.2) log ∧
    (log.map Prod.fst).Nodup ∧
    (∀ q ∈ log, q.1 = idName p0 w q.2 ∧ q.1 ∈ usedF ∧
      q.1 ∉ scanIdsFiles ⟨p0, w, bn, ow⟩ files) ∧
    (∀ id ∈ scanIdsFiles ⟨p0, w, bn, ow⟩ files, id ∈ usedF) := by
  unfold addMain at hrun
  rw [hparse] at hrun
  simp only at hrun
  by_cases hdup : (dupEntries (buildReg (files.foldr
      (fun f acc => scanFileAdd ⟨p0, w, bn, ow⟩ f ++ acc) []))).isEmpty = true
  · rw [if_pos hdup] at hrun
    rw [AddOut.done.injEq] at hrun
    obtain ⟨houts, hlog, htI, husedF⟩ := hrun
    have hrunp := addFilesGo_run ⟨p0, w, bn, ow⟩ files 0
      ((buildReg (files.foldr (fun f acc => scanFileAdd ⟨p0, w, bn, ow⟩ f ++ acc) [])).map
        Prod.fst)
    obtain ⟨ru, ri, rq, rc⟩ := hrunp
    rw [hlog] at rc rq
    rw [husedF] at ru rq
    have hsubkeys : ∀ id ∈ scanIdsFiles ⟨p0, w, bn, ow⟩ files,
        id ∈ (buildReg (files.foldr
          (fun f acc => scanFileAdd ⟨p0, w, bn, ow⟩ f ++ acc) [])).map Prod.fst := by
      intro id hid
      apply mem_buildReg_keys
      rw [occs_ids_eq_scanIdsFiles]
      exact hid
    refine ⟨rc, ?_, ?_, ?_⟩
    · unfold List.Nodup
      rw [List.pairwise_map]
      haveI : IsTrans (Str × Nat) (fun a b => a.2 < b.2) :=
        ⟨fun _ _ _ h1 h2 => lt_trans h1 h2⟩
      have hpw := List.chain'_iff_pairwise.mp rc
      apply hpw.imp_of_mem
      intro a b ha hb hlt heq
      have hna := (rq a ha).2.2.1
      have hnb := (rq b hb).2.2.1
      rw [hna, hnb] at heq
      have := idName_inj heq
      omega
    · intro q hq
      obtain ⟨-, -, hn, hin, hout⟩ := rq q hq
      exact ⟨hn, hin, fun hc => hout (hsubkeys _ hc)⟩
    · intro id hid
      exact ru id (hsubkeys id hid)
  · rw [if_neg hdup] at hrun
    exact absurd hrun (by simp)

/-- C9: witness at a concrete input (a file with one pre-existing
identifier and one fresh declaration). -/
theorem c9_cursor_monotone_no_reuse_witness :
    List.Chain' (fun a b => a.2 < b.2) [(['T', '2'], 2)] ∧
    ([(['T', '2'], 2)].map Prod.fst).Nodup ∧
    (∀ q ∈ [(['T', '2'], 2)], q.1 = idName ['T'] 1 q.2 ∧ q.1 ∈ [['T', '2'], ['T', '1']] ∧
      q.1 ∉ scanIdsFiles ⟨['T'], 1, 1, false⟩
        [⟨['f'], .cons (itDecl (.strLit ['T', '1', ':', ' ', 'a']))
          (.cons (itDecl (.strLit ['b'])) .nil)⟩]) ∧
    (∀ id ∈ scanIdsFiles ⟨['T'], 1, 1, false⟩
        [⟨['f'], .cons (itDecl (.strLit ['T', '1', ':', ' ', 'a']))
          (.cons (itDecl (.strLit ['b'])) .nil)⟩], id ∈ [['T', '2'], ['T', '1']]) :=
  c9_cursor_monotone_no_reuse ['T', '1'] false
    [⟨['f'], .cons (itDecl (.strLit ['T', '1', ':', ' ', 'a']))
      (.cons (itDecl (.strLit ['b'])) .nil)⟩]
    ['T'] 1 1
    [(⟨['f'], .cons (itDecl (.strLit ['T', '1', ':', ' ', 'a']))
      (.cons (itDecl (.strLit ['T', '2', ':', ' ', 'b'])) .nil)⟩, true)]
    [(['T', '2'], 2)] 2 [['T', '2'], ['T', '1']]
    (by decide) (by decide)

/-- C10 (confirmed): in the rewrite phase of add, a test declaration whose
first argument is absent or not an eligible literal is returned with its
whole subtree untouched — no nested declaration inside its arguments is
assigned an identifier and the state (used set, cursor, log) is unchanged
— while the scan phase of add does traverse the same subtree: its
occurrence list is exactly what it finds inside the arguments (the
ineligible title itself contributes nothing); with no argument at all,
both phases find and change nothing. -/
theorem c10_rewrite_skips_ineligible_subtree (cfg : AddCfg) (fb : Nat) (st : St)
    (c : Callee) (a0 rest : Ast)
    (hT : isTestAdd c = true) (hE : eligTitleAdd a0 = none) :
    trAdd cfg fb (.call c (.cons a0 rest)) st = (.call c (.cons a0 rest), st) ∧
    scanAdd cfg (.call c (.cons a0 rest)) = scanAdd cfg a0 ++ scanAdd cfg rest ∧
    trAdd cfg fb (.call c .nil) st = (.call c .nil, st) ∧
    scanAdd cfg (.call c .nil) = [] := by
  refine ⟨?_, ?_, ?_, ?_⟩
  · rw [trAdd.eq_def]
    simp only [hT, hE, if_true]
  · rw [scanAdd.eq_def]
    simp only [hT, if_true, hE, Option.getD_none]
    rw [matchExact_nil]
    simp
  · rw [trAdd.eq_def]
    simp only [hT, if_true]
  · rw [scanAdd.eq_def]
    simp only [hT, if_true]

/-- C10: witness at a concrete input.  The ineligible first argument hides
a nested eligible declaration bearing "t-001: x"; the scan records it, the
rewrite leaves the whole subtree and the state untouched. -/
theorem c10_rewrite_skips_ineligible_subtree_witness :
    trAdd ⟨['t', '-'], 3, 1, false⟩ 1
        (.call (.ident itName) (.cons .leaf
          (.cons (.box (.cons (itDecl (.strLit ['t', '-', '0', '0', '1', ':', ' ', 'x'])) .nil))
            .nil))) ⟨[], 0, false, []⟩
      = (.call (.ident itName) (.cons .leaf
          (.cons (.box (.cons (itDecl (.strLit ['t', '-', '0', '0', '1', ':', ' ', 'x'])) .nil))
            .nil)), ⟨[], 0, false, []⟩) ∧
    scanAdd ⟨['t', '-'], 3, 1, false⟩
        (.call (.ident itName) (.cons .leaf
          (.cons (.box (.cons (itDecl (.strLit ['t', '-', '0', '0', '1', ':', ' ', 'x'])) .nil))
            .nil)))
      = scanAdd ⟨['t', '-'], 3, 1, false⟩ .leaf ++
        scanAdd ⟨['t', '-'], 3, 1, false⟩
          (.cons (.box (.cons (itDecl (.strLit ['t', '-', '0', '0', '1', ':', ' ', 'x'])) .nil))
            .nil) ∧
    trAdd ⟨['t', '-'], 3, 1, false⟩ 1 (.call (.ident itName) .nil) ⟨[], 0, false, []⟩
      = (.call (.ident itName) .nil, ⟨[], 0, false, []⟩) ∧
    scanAdd ⟨['t', '-'], 3, 1, false⟩ (.call (.ident itName) .nil) = [] :=
  c10_rewrite_skips_ineligible_subtree ⟨['t', '-'], 3, 1, false⟩ 1 ⟨[], 0, false, []⟩
    (.ident itName) .leaf
    (.cons (.box (.cons (itDecl (.strLit ['t', '-', '0', '0', '1', ':', ' ', 'x'])) .nil)) .nil)
    (by decide) (by decide)

theorem mem_range'_iff (s n x : Nat) : x ∈ List.range' s n ↔ s ≤ x ∧ x < s + n := by
  rw [List.mem_range']
  constructor
  · rintro ⟨i, hi, rfl⟩
    omega
  · rintro ⟨h1, h2⟩
    exact ⟨x - s, by omega, by omega⟩

theorem range'_concat' (s n : Nat) : List.range' s (n + 1) = List.range' s n ++ [s + n] := by
  have h := List.range'_append s n 1 1
  simp only [Nat.one_mul, Nat.mul_one] at h
  rw [Nat.add_comm 1 n] at h
  rw [← h]
  rfl

theorem range'_split (s m n : Nat) :
    List.range' s (m + n) = List.range' s m ++ List.range' (s + m) n := by
  have h := List.range'_append s m n 1
  simp only [Nat.one_mul, Nat.mul_one] at h
  rw [Nat.add_comm n m] at h
  exact h.symm

theorem idName_not_mem_names (p : Str) (w bn m : Nat) :
    idName p w (bn + m) ∉ ((List.range' bn m).map (idName p w)).reverse := by
  intro hc
  rw [List.mem_reverse, List.mem_map] at hc
  obtain ⟨j, hj, heq⟩ := hc
  have := idName_inj heq
  rw [mem_range'_iff] at hj
  omega

theorem trAdd_cleanset (cfg : AddCfg) (fb : Nat) :
    ∀ (e : Ast) (st : St), scanAdd cfg e = [] →
      ∀ m : Nat,
        st.used = ((List.range' cfg.baseNum m).map (idName cfg.pfx cfg.wd)).reverse →
        fb + st.localInc = cfg.baseNum + m →
        (trAdd cfg fb e st).2.used
          = ((List.range' cfg.baseNum (m + freshCount e)).map (idName cfg.pfx cfg.wd)).reverse ∧
        fb + (trAdd cfg fb e st).2.localInc = cfg.baseNum + (m + freshCount e) ∧
        (trAdd cfg fb e st).2.log = st.log ++
          (List.range' (cfg.baseNum + m) (freshCount e)).map
            (fun j => (idName cfg.pfx cfg.wd j, j)) := by
  intro e st
  induction e, st using trAdd.induct cfg fb with
  | case1 c st hT a0 rest hE =>
    intro hscan m hused hinc
    rw [trAdd.eq_def]
    simp only [hT, hE, if_true]
    rw [freshCount.eq_def]
    simp only [hT, hE, if_true]
    simp [hused, hinc]
  | case2 c st hT a0 rest t1 hE hM e1 s1 h1 e2 s2 h2 ih1 ih2 =>
    intro hscan m hused hinc
    rw [scanAdd.eq_def] at hscan
    simp only [hT, if_true, hE, Option.getD_some] at hscan
    rw [List.append_eq_nil, List.append_eq_nil] at hscan
    have hM1 := hM
    rw [Bool.and_eq_true] at hM1
    cases hmm : matchExact cfg.pfx cfg.wd t1 with
    | none => rw [hmm] at hM1; simp at hM1
    | some x =>
      rw [hmm] at hscan
      simp at hscan
  | case3 c st hT a0 rest t1 hE hM n newId st1 rest' st2 heq ih =>
    intro hscan m hused hinc
    rw [scanAdd.eq_def] at hscan
    simp only [hT, if_true, hE, Option.getD_some] at hscan
    rw [List.append_eq_nil, List.append_eq_nil] at hscan
    have hscanrest : scanAdd cfg rest = [] := hscan.2
    have hfree : idName cfg.pfx cfg.wd (cfg.baseNum + m) ∉ st.used := by
      rw [hused]
      exact idName_not_mem_names _ _ _ _
    have hn : n = cfg.baseNum + m := by
      show allocId st.used cfg.pfx cfg.wd (fb + st.localInc) = cfg.baseNum + m
      rw [hinc]
      exact allocId_of_free _ _ _ _ hfree
    have hfb : fb ≤ cfg.baseNum + m := by omega
    have hst1used : st1.used
        = ((List.range' cfg.baseNum (m + 1)).map (idName cfg.pfx cfg.wd)).reverse := by
      show newId :: st.used = _
      rw [range'_concat', List.map_append, List.reverse_append]
      simp only [List.map_cons, List.map_nil, List.reverse_cons, List.reverse_nil,
        List.nil_append, List.singleton_append]
      rw [hused]
      show idName cfg.pfx cfg.wd n :: _ = _
      rw [hn]
    have hst1inc : fb + st1.localInc = cfg.baseNum + (m + 1) := by
      show fb + (n + 1 - fb) = _
      omega
    have hq := ih hscanrest (m + 1) hst1used hst1inc
    rw [heq] at hq
    dsimp only at hq
    obtain ⟨qu, qi, ql⟩ := hq
    have hres : trAdd cfg fb (Ast.call c (a0.cons rest)) st
        = (Ast.call c ((Ast.strLit (addFinalTitle cfg.pfx cfg.wd n t1)).cons rest'), st2) := by
      rw [trAdd.eq_def]
      simp only [hT, hE, hM, if_true, Bool.false_eq_true, if_false, heq]
    rw [hres]
    dsimp only
    have hfc : freshCount (Ast.call c (a0.cons rest)) = 1 + freshCount rest := by
      rw [freshCount.eq_def]
      simp only [hT, hE, if_true]
    rw [hfc]
    refine ⟨?_, ?_, ?_⟩
    · rw [qu]
      have h1 : m + 1 + freshCount rest = m + (1 + freshCount rest) := by omega
      rw [h1]
    · omega
    · have hsplit : List.map (fun j => (idName cfg.pfx cfg.wd j, j))
          (List.range' (cfg.baseNum + m) (1 + freshCount rest))
          = [(idName cfg.pfx cfg.wd n, n)] ++ List.map (fun j => (idName cfg.pfx cfg.wd j, j))
            (List.range' (cfg.baseNum + (m + 1)) (freshCount rest)) := by
        rw [range'_split (cfg.baseNum + m) 1 (freshCount rest), List.map_append]
        congr 1
        rw [hn]
        simp [List.range'_one]
      rw [ql, hsplit, List.append_assoc]
  | case4 c args st hT hnc =>
    intro hscan m hused hinc
    cases args with
    | cons a0 rest => exact (hnc a0 rest rfl).elim
    | nil =>
      rw [trAdd.eq_def]
      simp only [hT, if_true]
      rw [freshCount.eq_def]
      simp only [hT, if_true]
      simp [hused, hinc]
    | call c2 a2 =>
      rw [trAdd.eq_def]
      simp only [hT, if_true]
      rw [freshCount.eq_def]
      simp only [hT, if_true]
      simp [hused, hinc]
    | strLit s2 =>
      rw [trAdd.eq_def]
      simp only [hT, if_true]
      rw [freshCount.eq_def]
      simp only [hT, if_true]
      simp [hused, hinc]
    | tmpl q2 e2 =>
      rw [trAdd.eq_def]
      simp only [hT, if_true]
      rw [freshCount.eq_def]
      simp only [hT, if_true]
      simp [hused, hinc]
    | box b2 =>
      rw [trAdd.eq_def]
      simp only [hT, if_true]
      rw [freshCount.eq_def]
      simp only [hT, if_true]
      simp [hused, hinc]
    | leaf =>
      rw [trAdd.eq_def]
      simp only [hT, if_true]
      rw [freshCount.eq_def]
      simp only [hT, if_true]
      simp [hused, hinc]
  | case5 c args st hT e1 s1 h1 ih =>
    intro hscan m hused hinc
    rw [scanAdd.eq_def] at hscan
    simp only [hT, Bool.false_eq_true, if_false] at hscan
    have hq := ih hscan m hused hinc
    rw [h1] at hq
    dsimp only at hq
    have hres : trAdd cfg fb (Ast.call c args) st = (Ast.call c e1, s1) := by
      rw [trAdd.eq_def]
      simp only [hT, Bool.false_eq_true, if_false, h1]
    rw [hres]
    dsimp only
    have hfc : freshCount (Ast.call c args) = freshCount args := by
      rw [freshCount.eq_def]
      simp only [hT, Bool.false_eq_true, if_false]
    rw [hfc]
    exact hq
  | case6 s st =>
    intro hscan m hused hinc
    simp [trAdd, freshCount, hused, hinc]
  | case7 q0 exprs st e1 s1 h1 ih =>
    intro hscan m hused hinc
    rw [scanAdd.eq_def] at hscan
    have hq := ih hscan m hused hinc
    rw [h1] at hq
    dsimp only at hq
    have hres : trAdd cfg fb (Ast.tmpl q0 exprs) st = (Ast.tmpl q0 e1, s1) := by
      rw [trAdd.eq_def]
      simp only [h1]
    rw [hres]
    dsimp only
    have hfc : freshCount (Ast.tmpl q0 exprs) = freshCount exprs := by
      rw [freshCount.eq_def]
    rw [hfc]
    exact hq
  | case8 ch st e1 s1 h1 ih =>
    intro hscan m hused hinc
    rw [scanAdd.eq_def] at hscan
    have hq := ih hscan m hused hinc
    rw [h1] at hq
    dsimp only at hq
    have hres : trAdd cfg fb (Ast.box ch) st = (Ast.box e1, s1) := by
      rw [trAdd.eq_def]
      simp only [h1]
    rw [hres]
    dsimp only
    have hfc : freshCount (Ast.box ch) = freshCount ch := by
      rw [freshCount.eq_def]
    rw [hfc]
    exact hq
  | case9 st =>
    intro hscan m hused hinc
    simp [trAdd, freshCount, hused, hinc]
  | case10 st =>
    intro hscan m hused hinc
    simp [trAdd, freshCount, hused, hinc]
  | case11 hd tl st e1 s1 h1 e2 s2 h2 ih1 ih2 =>
    intro hscan m hused hinc
    rw [scanAdd.eq_def] at hscan
    rw [List.append_eq_nil] at hscan
    have hq1 := ih1 hscan.1 m hused hinc
    rw [h1] at hq1
    dsimp only at hq1
    obtain ⟨q1u, q1i, q1l⟩ := hq1
    have hq2 := ih2 hscan.2 (m + freshCount hd) q1u q1i
    rw [h2] at hq2
    dsimp only at hq2
    obtain ⟨q2u, q2i, q2l⟩ := hq2
    have hres : trAdd cfg fb (Ast.cons hd tl) st = (Ast.cons e1 e2, s2) := by
      rw [trAdd.eq_def]
      simp only [h1, h2]
    rw [hres]
    dsimp only
    have hfc : freshCount (Ast.cons hd tl) = freshCount hd + freshCount tl := by
      rw [freshCount.eq_def]
    rw [hfc]
    refine ⟨?_, ?_, ?_⟩
    · rw [q2u]
      have h3 : m + freshCount hd + freshCount tl = m + (freshCount hd + freshCount tl) := by omega
      rw [h3]
    · omega
    · rw [q2l, q1l, List.append_assoc]
      congr 1
      rw [range'_split (cfg.baseNum + m) (freshCount hd) (freshCount tl), List.map_append]
      have h4 : cfg.baseNum + m + freshCount hd = cfg.baseNum + (m + freshCount hd) := by omega
      rw [h4]

theorem addFilesGo_cleanset (cfg : AddCfg) :
    ∀ (files : List SrcFile) (tI : Nat) (used : List Str),
      (∀ f ∈ files, scanAdd cfg f.tree = []) →
      used = ((List.range' cfg.baseNum tI).map (idName cfg.pfx cfg.wd)).reverse →
      (addFilesGo cfg files tI used).2.2.1
        = tI + (files.map (fun f => freshCount f.tree)).sum ∧
      (addFilesGo cfg files tI used).2.2.2
        = ((List.range' cfg.baseNum (tI + (files.map (fun f => freshCount f.tree)).sum)).map
            (idName cfg.pfx cfg.wd)).reverse ∧
      (addFilesGo cfg files tI used).2.1
        = (List.range' (cfg.baseNum + tI) ((files.map (fun f => freshCount f.tree)).sum)).map
            (fun j => (idName cfg.pfx cfg.wd j, j)) := by
  intro files
  induction files with
  | nil =>
    intro tI used hclean hused
    simpa [addFilesGo] using hused
  | cons f fs ih =>
    intro tI used hclean hused
    have hq := trAdd_cleanset cfg (cfg.baseNum + tI) f.tree ⟨used, 0, false, []⟩
      (hclean f (List.mem_cons_self f fs)) tI hused (by dsimp only; omega)
    obtain ⟨qu, qi, ql⟩ := hq
    have hinc : (trAdd cfg (cfg.baseNum + tI) f.tree ⟨used, 0, false, []⟩).2.localInc
        = freshCount f.tree := by omega
    have hrest := ih (tI + freshCount f.tree)
      (trAdd cfg (cfg.baseNum + tI) f.tree ⟨used, 0, false, []⟩).2.used
      (fun g hg => hclean g (List.mem_cons_of_mem f hg)) qu
    obtain ⟨ru, ri, rl⟩ := hrest
    rw [addFilesGo]
    dsimp only
    rw [hinc]
    refine ⟨?_, ?_, ?_⟩
    · rw [ru]
      simp only [List.map_cons, List.sum_cons]
      omega
    · rw [ri]
      simp only [List.map_cons, List.sum_cons]
      have h1 : tI + freshCount f.tree + (fs.map (fun f => freshCount f.tree)).sum
          = tI + (freshCount f.tree + (fs.map (fun f => freshCount f.tree)).sum) := by omega
      rw [h1]
    · rw [rl, ql]
      simp only [List.nil_append, List.map_cons, List.sum_cons]
      rw [range'_split (cfg.baseNum + tI) (freshCount f.tree)
        ((fs.map (fun f => freshCount f.tree)).sum), List.map_append]
      have h2 : cfg.baseNum + tI + freshCount f.tree
          = cfg.baseNum + (tI + freshCount f.tree) := by omega
      rw [h2]

/-- C6 (amended): on a file set whose scan finds no matching identifier,
with a seed accepted by parseBaseId as (prefix p, base bn, width w), add
completes and assigns exactly the identifiers idName p w bn, …,
idName p w (bn+N-1) — consecutive, zero-padded, no gaps — in document
order within each file and file order across files, where N is the total
number of declarations reached by the rewrite traversal; the final cursor
is N and the final used set is exactly the assigned identifiers. -/
theorem c6_gapless_fresh_allocation (bid : Str) (ow : Bool) (files : List SrcFile)
    (p : Str) (bn w : Nat)
    (hparse : parseBaseId bid = some (p, bn, w))
    (hclean : ∀ f ∈ files, scanAdd ⟨p, w, bn, ow⟩ f.tree = []) :
    ∃ outs, addMain bid ow files
      = .done outs
          ((List.range' bn ((files.map (fun f => freshCount f.tree)).sum)).map
            (fun j => (idName p w j, j)))
          ((files.map (fun f => freshCount f.tree)).sum)
          (((List.range' bn ((files.map (fun f => freshCount f.tree)).sum)).map
            (idName p w)).reverse) := by
  have hocc : ∀ (fl : List SrcFile), (∀ f ∈ fl, scanAdd ⟨p, w, bn, ow⟩ f.tree = []) →
      fl.foldr (fun f acc => scanFileAdd ⟨p, w, bn, ow⟩ f ++ acc) [] = [] := by
    intro fl
    induction fl with
    | nil => intro _; rfl
    | cons f fs ih =>
      intro hc
      rw [List.foldr_cons, ih (fun g hg => hc g (List.mem_cons_of_mem f hg))]
      have hf : scanFileAdd ⟨p, w, bn, ow⟩ f = [] := by
        unfold scanFileAdd
        rw [hc f (List.mem_cons_self f fs)]
        rfl
      rw [hf]
      rfl
  obtain ⟨h1, h2, h3⟩ := addFilesGo_cleanset ⟨p, w, bn, ow⟩ files 0 [] hclean rfl
  unfold addMain
  rw [hparse]
  simp only
  rw [hocc files hclean]
  rw [if_pos (show (dupEntries (buildReg ([] : List (Str × Str × Str)))).isEmpty = true
    from rfl)]
  simp only [buildReg, List.foldl_nil, List.map_nil]
  refine ⟨(addFilesGo ⟨p, w, bn, ow⟩ files 0 []).1, ?_⟩
  rw [AddOut.done.injEq]
  refine ⟨rfl, ?_, ?_, ?_⟩
  · rw [h3]
    simp
  · rw [h1]
    omega
  · rw [h2]
    simp

/-- C6: counterexample to the claim as stated.  The claim's own seed
"t-001" is rejected by parseBaseId — the anchored capture admits a
letters-only prefix, and "t-" contains a hyphen — so add errors out and
assigns nothing, even on a clean file set with one eligible declaration. -/
theorem c6_counterexample :
    parseBaseId ['t', '-', '0', '0', '1'] = none ∧
    addMain ['t', '-', '0', '0', '1'] false
        [⟨['f'], .cons (itDecl (.strLit ['a'])) .nil⟩] = .err :=
  ⟨by decide, by decide⟩

/-- C6: witness for the amended theorem at a concrete input: seed "t2"
(prefix "t", base 2, width 1), one clean file with two eligible
declarations. -/
theorem c6_gapless_fresh_allocation_witness :
    ∃ outs, addMain ['t', '2'] false
        [⟨['f'], Ast.cons (itDecl (.strLit ['a'])) (.cons (itDecl (.strLit ['b'])) .nil)⟩]
      = .done outs
          ((List.range' 2 (([(⟨['f'], Ast.cons (itDecl (.strLit ['a']))
              (.cons (itDecl (.strLit ['b'])) .nil)⟩ : SrcFile)].map
            (fun f => freshCount f.tree)).sum)).map (fun j => (idName ['t'] 1 j, j)))
          (([(⟨['f'], Ast.cons (itDecl (.strLit ['a']))
              (.cons (itDecl (.strLit ['b'])) .nil)⟩ : SrcFile)].map
            (fun f => freshCount f.tree)).sum)
          (((List.range' 2 (([(⟨['f'], Ast.cons (itDecl (.strLit ['a']))
              (.cons (itDecl (.strLit ['b'])) .nil)⟩ : SrcFile)].map
            (fun f => freshCount f.tree)).sum)).map (idName ['t'] 1)).reverse) :=
  c6_gapless_fresh_allocation ['t', '2'] false
    [⟨['f'], Ast.cons (itDecl (.strLit ['a'])) (.cons (itDecl (.strLit ['b'])) .nil)⟩]
    ['t'] 2 1 (by decide) (by decide)

theorem mem_insSorted (n x : Nat) : ∀ l : List Nat, x ∈ insSorted n l ↔ x = n ∨ x ∈ l := by
  intro l
  induction l with
  | nil => simp [insSorted]
  | cons m ms ih =>
    rw [insSorted]
    by_cases h : n ≤ m
    · simp [h]
    · simp only [h, if_false, List.mem_cons, ih]
      tauto

theorem mem_sortNats (x : Nat) : ∀ l : List Nat, x ∈ sortNats l ↔ x ∈ l := by
  intro l
  induction l with
  | nil => simp [sortNats]
  | cons m ms ih =>
    unfold sortNats at *
    rw [List.foldr_cons, mem_insSorted, ih]
    simp

theorem mem_dedupNats (x : Nat) : ∀ (l seen : List Nat),
    x ∈ dedupNats seen l ↔ x ∈ l ∧ x ∉ seen := by
  intro l
  induction l with
  | nil => simp [dedupNats]
  | cons y ys ih =>
    intro seen
    rw [dedupNats]
    by_cases h : y ∈ seen
    · simp only [h, if_true, ih, List.mem_cons]
      constructor
      · rintro ⟨h1, h2⟩
        exact ⟨Or.inr h1, h2⟩
      · rintro ⟨h1 | h1, h2⟩
        · exact absurd h (h1 ▸ h2)
        · exact ⟨h1, h2⟩
    · simp only [h, if_false, List.mem_cons, ih]
      by_cases hxy : x = y
      · subst hxy
        simp [h]
      · simp [hxy]

theorem sorted_insSorted (n : Nat) : ∀ l : List Nat,
    List.Sorted (· ≤ ·) l → List.Sorted (· ≤ ·) (insSorted n l) := by
  intro l
  induction l with
  | nil => intro _; simp [insSorted]
  | cons m ms ih =>
    intro hs
    rw [List.sorted_cons] at hs
    obtain ⟨hall, hms⟩ := hs
    rw [insSorted]
    by_cases h : n ≤ m
    · simp only [h, if_true]
      rw [List.sorted_cons]
      refine ⟨?_, ?_⟩
      · intro b hb
        rcases List.mem_cons.mp hb with hb | hb
        · omega
        · exact le_trans h (hall b hb)
      · rw [List.sorted_cons]
        exact ⟨hall, hms⟩
    · simp only [h, if_false]
      rw [List.sorted_cons]
      refine ⟨?_, ih hms⟩
      intro b hb
      rcases (mem_insSorted n b ms).mp hb with hb | hb
      · omega
      · exact hall b hb

theorem sorted_sortNats : ∀ l : List Nat, List.Sorted (· ≤ ·) (sortNats l) := by
  intro l
  induction l with
  | nil => simp [sortNats]
  | cons m ms ih => exact sorted_insSorted m (sortNats ms) ih

theorem sorted_le_getLast {l : List Nat} (hs : List.Sorted (· ≤ ·) l) {m : Nat}
    (hm : l.getLast? = some m) : ∀ x ∈ l, x ≤ m := by
  induction l with
  | nil => simp at hm
  | cons a t ih =>
    cases t with
    | nil =>
      simp only [List.getLast?_singleton, Option.some.injEq] at hm
      intro x hx
      simp at hx
      omega
    | cons b t' =>
      rw [List.getLast?_cons_cons] at hm
      rw [List.sorted_cons] at hs
      obtain ⟨hall, hrest⟩ := hs
      intro x hx
      rcases List.mem_cons.mp hx with hx | hx
      · subst hx
        exact le_trans (hall b (List.mem_cons_self b t'))
          (ih hrest hm b (List.mem_cons_self b t'))
      · exact ih hrest hm x hx

theorem le_maxNat {x : Nat} : ∀ {l : List Nat}, x ∈ l → x ≤ maxNat l := by
  intro l
  induction l with
  | nil => intro h; simp at h
  | cons y ys ih =>
    intro h
    rcases List.mem_cons.mp h with h | h
    · subst h
      simp [maxNat]
    · have := ih h
      simp only [maxNat, List.foldr_cons] at *
      omega

theorem maxNat_le {m : Nat} : ∀ {l : List Nat}, (∀ x ∈ l, x ≤ m) → maxNat l ≤ m := by
  intro l
  induction l with
  | nil => intro _; simp [maxNat]
  | cons y ys ih =>
    intro h
    have h1 := h y (List.mem_cons_self y ys)
    have h2 := ih (fun x hx => h x (List.mem_cons_of_mem y hx))
    simp only [maxNat, List.foldr_cons] at *
    omega

theorem mem_sorted_iff (nums : List Nat) (x : Nat) :
    x ∈ sortNats (dedupNats [] nums) ↔ x ∈ nums := by
  rw [mem_sortNats, mem_dedupNats]
  simp

theorem compareIds_missing_eq (idObjects : List IdObj) (b : Nat) :
    (compareIds idObjects b).1 = missingSpec b (idObjects.map (fun i => i.number)) := by
  unfold compareIds missingSpec
  dsimp only
  by_cases hne : (idObjects.map (fun i => i.number)).isEmpty = true
  · rw [List.isEmpty_iff] at hne
    rw [hne]
    rfl
  · have hnonempty : idObjects.map (fun i => i.number) ≠ [] := by
      rw [List.isEmpty_iff] at hne
      exact hne
    obtain ⟨n0, hn0⟩ := List.exists_mem_of_ne_nil _ hnonempty
    have hsne : sortNats (dedupNats [] (idObjects.map (fun i => i.number))) ≠ [] := by
      intro hc
      have hmem := (mem_sorted_iff (idObjects.map (fun i => i.number)) n0).mpr hn0
      rw [hc] at hmem
      simp at hmem
    have hsome : (sortNats (dedupNats []
        (idObjects.map (fun i => i.number)))).getLast?.isSome = true := by
      rw [List.getLast?_isSome]
      exact hsne
    obtain ⟨m, hm⟩ := Option.isSome_iff_exists.mp hsome
    rw [hm, if_neg hne]
    have hmmax : m = maxNat (idObjects.map (fun i => i.number)) := by
      have hmem : m ∈ sortNats (dedupNats [] (idObjects.map (fun i => i.number))) :=
        List.mem_of_mem_getLast? hm
    -- m is a member, hence at most the max; the max is a member bound by m
      have h1 := le_maxNat ((mem_sorted_iff (idObjects.map (fun i => i.number)) m).mp hmem)
      have h2 := maxNat_le (fun x hx =>
        sorted_le_getLast (sorted_sortNats _) hm x
          ((mem_sorted_iff (idObjects.map (fun i => i.number)) x).mpr hx))
      omega
    rw [hmmax]
    apply List.filter_congr
    intro i _
    exact decide_eq_decide.mpr
      (not_congr (mem_sorted_iff (idObjects.map (fun i => i.number)) i))

/-- C2 (amended): every run of compare reports as missing exactly the
integers in [1, max S] absent from S, where S is the multiset of matched
numeric values — the lower bound is the default baseNumber 1, because
main never passes the seed's numeric value (getIdPrefix does not even
return it) — re-padded under the seed's prefix; none when S is empty. -/
theorem c2_missing_base_one (bid : Str) (files : List SrcFile) (p : Str) (padding : Nat)
    (hparse : getIdPrefixCmp bid = some (p, padding)) :
    compareMain bid files = some
      ⟨(files.foldr (fun f acc => cmpScan p f.tree ++ acc) []).length,
       (compareIds (files.foldr (fun f acc => cmpScan p f.tree ++ acc) []) 1).2,
       (missingSpec 1 ((files.foldr (fun f acc => cmpScan p f.tree ++ acc) []).map
         (fun i => i.number))).map (fun n => p ++ padStart padding (natStr n))⟩ := by
  unfold compareMain
  rw [hparse]
  simp only
  rw [compareIds_missing_eq]

/-- C2: witness for the amended theorem at a concrete input. -/
theorem c2_missing_base_one_witness :
    compareMain ['t', '-', '0', '0', '3']
        [⟨['f'], itDecl (.strLit ['t', '-', '0', '0', '5', ':', ' ', 'x'])⟩]
      = some
        ⟨([(⟨['f'], itDecl (.strLit ['t', '-', '0', '0', '5', ':', ' ', 'x'])⟩ :
            SrcFile)].foldr (fun f acc => cmpScan ['t', '-'] f.tree ++ acc) []).length,
         (compareIds ([(⟨['f'], itDecl (.strLit ['t', '-', '0', '0', '5', ':', ' ', 'x'])⟩ :
            SrcFile)].foldr (fun f acc => cmpScan ['t', '-'] f.tree ++ acc) []) 1).2,
         (missingSpec 1 (([(⟨['f'], itDecl (.strLit ['t', '-', '0', '0', '5', ':', ' ', 'x'])⟩ :
            SrcFile)].foldr (fun f acc => cmpScan ['t', '-'] f.tree ++ acc) []).map
           (fun i => i.number))).map (fun n => ['t', '-'] ++ padStart 3 (natStr n))⟩ :=
  c2_missing_base_one ['t', '-', '0', '0', '3']
    [⟨['f'], itDecl (.strLit ['t', '-', '0', '0', '5', ':', ' ', 'x'])⟩]
    ['t', '-'] 3 (by decide)

/-- C2: counterexample to the claim as stated.  Seed "t-003" has numeric
value 3, the single matched identifier is t-005; the spec's rule reports
[3, 5] \x5c {5} = {3, 4}, but the run reports t-001 through t-004 — the
seed's base is ignored and 1 is used. -/
theorem c2_counterexample :
    compareMain ['t', '-', '0', '0', '3']
        [⟨['f'], itDecl (.strLit ['t', '-', '0', '0', '5', ':', ' ', 'x'])⟩]
      = some ⟨1, [],
          [['t', '-', '0', '0', '1'], ['t', '-', '0', '0', '2'], ['t', '-', '0', '0', '3'],
           ['t', '-', '0', '0', '4']]⟩ ∧
    missingSpec 3 [5] = [3, 4] :=
  ⟨by decide, by decide⟩

/-- C5 (amended): every matcher is anchored at the start of the title and
requires the literal prefix, a digit run, a colon, then optional
whitespace — but only add's matcher requires exactly width digits; the
matcher shared by clean and compare accepts any nonempty digit run of any
length. -/
theorem c5_matcher_shapes (p : Str) (w : Nat) (title : Str) :
    ((matchExact p w title).isSome = true ↔
      ∃ d r, title = p ++ d ++ ':' :: r ∧ d.length = w ∧ d.all Char.isDigit = true) ∧
    ((matchPlus p title).isSome = true ↔
      ∃ d r, title = p ++ d ++ ':' :: r ∧ d ≠ [] ∧ d.all Char.isDigit = true) :=
  ⟨matchExact_isSome_iff p w title, matchPlus_isSome_iff p title⟩

/-- C5: counterexample to the claim as stated.  With prefix "t-" and
width 3, the title "t-1: x" has one digit, not three: add's matcher
rejects it, but the clean/compare matcher accepts it and compare records
it as identifier t-1 — the digit count is not exact across all three
operations. -/
theorem c5_counterexample :
    matchExact ['t', '-'] 3 ['t', '-', '1', ':', ' ', 'x'] = none ∧
    matchPlus ['t', '-'] ['t', '-', '1', ':', ' ', 'x'] = some (['1'], ['x']) ∧
    cmpScan ['t', '-'] (itDecl (.strLit ['t', '-', '1', ':', ' ', 'x']))
      = [⟨1, ['t', '-', '1']⟩] :=
  ⟨by decide, by decide, by decide⟩

/-- C8 (amended): with a seed accepted by parseBaseId, clean derives the
same prefix (and the digit-run length) from the seed as add did, and on
every title rewritten by add — a plain string literal holding
identifier + colon + space + the trimmed stripped old text — the clean
matcher fires and restores exactly the trimmed stripped pre-add text.
The restoration is only guaranteed for string-literal titles: clean's
template-literal branch is unreachable, so a template-literal title is
never cleaned. -/
theorem c8_round_trip_rewritten (bid : Str) (p : Str) (bn w : Nat)
    (hparse : parseBaseId bid = some (p, bn, w)) :
    getIdPrefixCmp bid = some (p, w) ∧
    ∀ n title, cleanTitleStr p (addFinalTitle p w n title)
      = trimStr (stripExact p w title) := by
  refine ⟨getIdPrefixCmp_agrees hparse, ?_⟩
  intro n title
  unfold cleanTitleStr
  rw [matchPlus_addFinalTitle]

/-- C8: witness for the amended theorem at a concrete input. -/
theorem c8_round_trip_rewritten_witness :
    getIdPrefixCmp ['T', '0', '0', '1'] = some (['T'], 3) ∧
    ∀ n title, cleanTitleStr ['T'] (addFinalTitle ['T'] 3 n title)
      = trimStr (stripExact ['T'] 3 title) :=
  c8_round_trip_rewritten ['T', '0', '0', '1'] ['T'] 1 3 (by decide)

/-- C8: counterexample to the claim as stated.  A declaration whose title
is the template literal (zero expressions) with text "T001: a" already
carries the identifier: add leaves it unchanged, and clean also leaves it
unchanged — the `!firstArg.value` guard rejects every template literal —
so after add-then-clean the title still reads "T001: a", not the
trimmed stripped text "a". -/
theorem c8_counterexample :
    addMain ['T', '0', '0', '1'] false
        [⟨['f'], .call (.ident itName)
          (.cons (.tmpl ['T', '0', '0', '1', ':', ' ', 'a'] .nil) (.cons (.box .nil) .nil))⟩]
      = .done [(⟨['f'], .call (.ident itName)
          (.cons (.tmpl ['T', '0', '0', '1', ':', ' ', 'a'] .nil) (.cons (.box .nil) .nil))⟩,
          false)] [] 0 [['T', '0', '0', '1']] ∧
    cleanMain ['T', '0', '0', '1']
        [⟨['f'], .call (.ident itName)
          (.cons (.tmpl ['T', '0', '0', '1', ':', ' ', 'a'] .nil) (.cons (.box .nil) .nil))⟩]
      = some [(⟨['f'], .call (.ident itName)
          (.cons (.tmpl ['T', '0', '0', '1', ':', ' ', 'a'] .nil) (.cons (.box .nil) .nil))⟩,
          false)] ∧
    trimStr (stripExact ['T'] 3 ['T', '0', '0', '1', ':', ' ', 'a']) = ['a'] ∧
    (['T', '0', '0', '1', ':', ' ', 'a'] : Str) ≠ ['a'] :=
  ⟨by decide, by decide, by decide, by decide⟩

theorem digit_not_alpha {c : Char} (h : c.isDigit = true) : c.isAlpha = false := by
  by_contra hc
  rw [Bool.not_eq_false] at hc
  rw [isAlpha_not_isDigit hc] at h
  cases h

/-- C4 (amended): for every seed split as p ++ d with d a nonempty maximal
trailing digit run, compare/clean's getIdPrefix succeeds with prefix p
and width the run's length, exactly as the spec says; add's parseBaseId
agrees on such seeds only when the prefix is letters-only — otherwise it
throws.  And with no trailing digit run, both parsers fail. -/
theorem c4_seed_parse (b : Str) :
    (∀ p d, b = p ++ d → d ≠ [] → d.all Char.isDigit = true →
      (∀ c, p.getLast? = some c → c.isDigit = false) →
      getIdPrefixCmp b = some (p, d.length) ∧
      (parseBaseId b = some (p, decValue d, d.length) ↔ p.all Char.isAlpha = true)) ∧
    ((∀ c, b.getLast? = some c → c.isDigit = false) →
      getIdPrefixCmp b = none ∧ parseBaseId b = none) := by
  constructor
  · rintro p d rfl hne hdig hlast
    have hdrev : ∀ x ∈ d.reverse, Char.isDigit x = true := by
      intro x hx
      exact List.all_eq_true.mp hdig x (List.mem_reverse.mp hx)
    constructor
    · unfold getIdPrefixCmp
      rw [List.reverse_append]
      cases hp : p.reverse with
      | nil =>
        have hpn : p = [] := List.reverse_eq_nil_iff.mp hp
        rw [List.append_nil, List.takeWhile_eq_self_iff.mpr hdrev,
          List.dropWhile_eq_nil_iff.mpr hdrev]
        have hie : d.reverse.isEmpty = false := by
          rw [List.isEmpty_eq_false]
          simp [hne]
        rw [if_neg (by rw [hie]; exact Bool.false_ne_true)]
        rw [hpn]
        simp
      | cons c t =>
        have hpc : p = (c :: t).reverse := by
          rw [← hp, List.reverse_reverse]
        have hcl : p.getLast? = some c := by
          rw [hpc, List.reverse_cons]
          exact List.getLast?_concat _
        have hc := hlast c hcl
        have h := takeWhile_all_append hdrev hc t
        rw [h.1, h.2]
        have hie : d.reverse.isEmpty = false := by
          rw [List.isEmpty_eq_false]
          simp [hne]
        rw [if_neg (by rw [hie]; exact Bool.false_ne_true)]
        rw [← hpc]
        simp
    · constructor
      · intro h
        have hx := parseBaseId_eq_some h
        rw [hx.1]
        exact List.all_eq_true.mpr (fun x hxm => List.mem_takeWhile_imp hxm)
      · intro hall
        cases d with
        | nil => exact absurd rfl hne
        | cons d0 d' =>
          have hd0 : d0.isDigit = true := List.all_eq_true.mp hdig d0 (List.mem_cons_self d0 d')
          have htw := takeWhile_all_append
            (fun x hx => List.all_eq_true.mp hall x hx) (digit_not_alpha hd0) d'
          unfold parseBaseId
          rw [htw.1, htw.2]
          rw [if_pos (by simp [hdig])]
  · intro hlast
    constructor
    · unfold getIdPrefixCmp
      cases hb : b.reverse with
      | nil => rfl
      | cons c t =>
        have hcb : b.getLast? = some c := by
          have hbe : b = t.reverse ++ [c] := by
            rw [← List.reverse_reverse b, hb, List.reverse_cons]
          rw [hbe]
          exact List.getLast?_concat _
        have hc := hlast c hcb
        rw [List.takeWhile_cons]
        simp [hc]
    · unfold parseBaseId
      cases hd : b.dropWhile Char.isAlpha with
      | nil => rfl
      | cons c t =>
        have hsuf : b.dropWhile Char.isAlpha <:+ b := List.dropWhile_suffix _
        obtain ⟨pre, hpre⟩ := hsuf
        rw [hd] at hpre
        have hlastb : b.getLast? = (c :: t).getLast? := by
          rw [← hpre]
          exact List.getLast?_append_of_ne_nil pre (List.cons_ne_nil c t)
        have hsm : ((c :: t).getLast?).isSome = true := by
          rw [List.getLast?_isSome]
          exact List.cons_ne_nil c t
        obtain ⟨m, hm⟩ := Option.isSome_iff_exists.mp hsm
        have hmmem : m ∈ c :: t := List.mem_of_mem_getLast? hm
        have hmnd : m.isDigit = false := hlast m (by rw [hlastb, hm])
        have hnall : (c :: t).all Char.isDigit = false := by
          rw [Bool.eq_false_iff]
          intro hc
          have := List.all_eq_true.mp hc m hmmem
          rw [hmnd] at this
          cases this
        rw [if_neg (by simp [hnall])]

/-- C4: witness for the amended theorem at a concrete input. -/
theorem c4_seed_parse_witness :
    getIdPrefixCmp ['t', '0', '0', '7'] = some (['t'], 3) ∧
    (parseBaseId ['t', '0', '0', '7']
        = some (['t'], decValue ['0', '0', '7'], (['0', '0', '7'] : Str).length) ↔
      (['t'] : Str).all Char.isAlpha = true) :=
  (c4_seed_parse ['t', '0', '0', '7']).1 ['t'] ['0', '0', '7']
    (by decide) (by decide) (by decide) (by decide)

/-- C4: counterexample to the claim as stated.  The spec's own example
seed "e2e-007" ends in a digit run, and getIdPrefix indeed returns
prefix "e2e-" and width 3 — but parseBaseId rejects it (its anchored
pattern only admits a letters-only prefix, and "e2e-" holds a digit and
a hyphen), so add throws InvalidSeedFormat on a seed the claim says must
succeed. -/
theorem c4_counterexample :
    parseBaseId ['e', '2', 'e', '-', '0', '0', '7'] = none ∧
    getIdPrefixCmp ['e', '2', 'e', '-', '0', '0', '7'] = some (['e', '2', 'e', '-'], 3) :=
  ⟨by decide, by decide⟩

/-- C3 (code bug): a test declaration whose first argument is a template
literal with zero interpolated expressions is NOT treated as eligible by
compare or clean — the guard `!firstArg || !firstArg.value` rejects every
template literal (a Babel TemplateLiteral node has no `value` property),
so the TemplateLiteral branch below it is dead code.  The embedded
identifier "t-001" is neither counted by compare nor stripped by clean,
while the identical string-literal title is counted, and add's scanner
(which does handle template literals) sees it. -/
theorem c3_template_ineligible_eval :
    cmpScan ['t', '-']
        (itDecl (.tmpl ['t', '-', '0', '0', '1', ':', ' ', 'x'] .nil)) = [] ∧
    clnTr ['t', '-'] (itDecl (.tmpl ['t', '-', '0', '0', '1', ':', ' ', 'x'] .nil)) false
      = (itDecl (.tmpl ['t', '-', '0', '0', '1', ':', ' ', 'x'] .nil), false) ∧
    compareMain ['t', '-', '0', '0', '1']
        [⟨['f'], itDecl (.tmpl ['t', '-', '0', '0', '1', ':', ' ', 'x'] .nil)⟩]
      = some ⟨0, [], []⟩ ∧
    cmpScan ['t', '-'] (itDecl (.strLit ['t', '-', '0', '0', '1', ':', ' ', 'x']))
      = [⟨1, ['t', '-', '0', '0', '1']⟩] ∧
    scanAdd ⟨['t', '-'], 3, 1, false⟩
        (itDecl (.tmpl ['t', '-', '0', '0', '1', ':', ' ', 'x'] .nil))
      = [(['t', '-', '0', '0', '1'], ['t', '-', '0', '0', '1', ':', ' ', 'x'])] :=
  ⟨by decide, by decide, by decide, by decide, by decide⟩

/-- C1 (code bug): with identifier "001" borne by declarations in two
files, add.js blocks — it reports the duplicate with both (file, title)
pairs and rewrites nothing — but the legacy index.cjs entry point reports
the same duplicates and then, its duplicate branch lacking a return,
proceeds to transform the files anyway: the fresh declaration in the
second file is rewritten to "002: c" and the file is flagged changed. -/
theorem c1_dup_gate_divergence :
    addMain ['0', '0', '1'] false
        [⟨['f'], .cons (itDecl (.strLit ['0', '0', '1', ':', ' ', 'a'])) .nil⟩,
         ⟨['g'], .cons (itDecl (.strLit ['0', '0', '1', ':', ' ', 'b']))
           (.cons (itDecl (.strLit ['c'])) .nil)⟩]
      = .blocked [(['0', '0', '1'],
          [(['f'], ['0', '0', '1', ':', ' ', 'a']),
           (['g'], ['0', '0', '1', ':', ' ', 'b'])])] ∧
    idxMain ['0', '0', '1'] false
        [⟨['f'], .cons (itDecl (.strLit ['0', '0', '1', ':', ' ', 'a'])) .nil⟩,
         ⟨['g'], .cons (itDecl (.strLit ['0', '0', '1', ':', ' ', 'b']))
           (.cons (itDecl (.strLit ['c'])) .nil)⟩]
      = .run [(['0', '0', '1'],
          [(['f'], ['0', '0', '1', ':', ' ', 'a']),
           (['g'], ['0', '0', '1', ':', ' ', 'b'])])]
        [(⟨['f'], .cons (itDecl (.strLit ['0', '0', '1', ':', ' ', 'a'])) .nil⟩, false),
         (⟨['g'], .cons (itDecl (.strLit ['0', '0', '1', ':', ' ', 'b']))
           (.cons (itDecl (.strLit ['0', '0', '2', ':', ' ', 'c'])) .nil)⟩, true)]
        [(['0', '0', '2'], 2)] ∧
    (Ast.cons (itDecl (.strLit ['0', '0', '1', ':', ' ', 'b']))
        (.cons (itDecl (.strLit ['0', '0', '2', ':', ' ', 'c'])) .nil)
      ≠ .cons (itDecl (.strLit ['0', '0', '1', ':', ' ', 'b']))
          (.cons (itDecl (.strLit ['c'])) .nil)) :=
  ⟨by decide, by decide, by decide⟩
